import Mathlib

set_option maxHeartbeats 1000000

/-!
Verification of the `bundler` tool of this repository (src/bundler/src/main.rs):
a single-file vendoring tool that merges a Rust target file with the transitive
closure of the `library` modules it references.

The embedding models:
* `syn::UseTree` and the fragment of `syn::File`/`syn::Item` the bundler
  inspects (`use` items, module declarations with and without bodies, and
  opaque other items carrying their token text);
* the file system as a finite association list from paths (segment lists)
  to file contents;
* the external `syn` parser and the `prettyplease` printer as an abstract
  `Oracle` (they are third-party crates, not code of this repository);
* the main dependency-closure loop as a fuel-indexed function `loopFuel`
  (the Rust loop is an unbounded `while`; termination is proved separately).
-/

namespace Bundler

/-- A module path / module key: an ordered sequence of segment names. -/
abbrev Key := List String

/-- The `syn::UseTree`, restricted to the constructors the bundler inspects
(main.rs `collect_leaves`). -/
inductive UseTree where
  | path (ident : String) (sub : UseTree)
  | group (items : List UseTree)
  | name (ident : String)
  | rename (ident : String) (asName : String)
  | glob

mutual

/-- main.rs `collect_leaves`: flattens a use tree into the list of full leaf
paths, depth-first.  The Rust version mutates a shared `prefix` vector with
balanced push/pop; the pure version passes the extended prefix down. -/
def collect_leaves : UseTree → List String → List (List String)
  | .path id sub, pre => collect_leaves sub (pre ++ [id])
  | .group items, pre => collect_leavesL items pre
  | .name id, pre => [pre ++ [id]]
  | .rename id _, pre => [pre ++ [id]]
  | .glob, _ => []

/-- The `collect_leaves` folded over the members of a `UseTree::Group`. -/
def collect_leavesL : List UseTree → List String → List (List String)
  | [], _ => []
  | t :: ts, pre => collect_leaves t pre ++ collect_leavesL ts pre

end

mutual

/-- All identifier strings occurring in a use tree (bookkeeping for the
termination bound; the alias of a rename never enters a collected path,
matching `collect_leaves`, but the original name does). -/
def treeIdents : UseTree → List String
  | .path id sub => id :: treeIdents sub
  | .group items => treeIdentsL items
  | .name id => [id]
  | .rename id _ => [id]
  | .glob => []

/-- The `treeIdents` folded over a group's members. -/
def treeIdentsL : List UseTree → List String
  | [] => []
  | t :: ts => treeIdents t ++ treeIdentsL ts

end

/-- The fragment of `syn::Item` the bundler distinguishes:
`Item::Use`, `Item::Mod { content: None }` (a bare forwarding declaration),
`Item::Mod { content: Some .. }` (a module with an inline body), and every
other item kept opaque together with its token text. -/
inductive Item where
  | itemUse (tree : UseTree)
  | modDecl (ident : String)
  | modBody (ident : String) (items : List Item)
  | other (text : String)

/-- The `syn::File`: the list of top-level items. -/
structure File where
  items : List Item

mutual

/-- The use trees of all `Item::Use` items of one item, in `syn::visit`
order (the visitor recurses into `mod` bodies). -/
def itemUses : Item → List UseTree
  | .itemUse t => [t]
  | .modBody _ items => itemsUses items
  | .modDecl _ => []
  | .other _ => []

/-- The `itemUses` folded over an item list. -/
def itemsUses : List Item → List UseTree
  | [] => []
  | it :: rest => itemUses it ++ itemsUses rest

end

/-- All use trees of a file, in visit order. -/
def fileUses (f : File) : List UseTree :=
  itemsUses f.items

/-! ### File system model

The bundler touches the disk only through `Path::is_file` and
`fs::read_to_string`.  A file system is the finite association list of its
plain files; reading any other path (a directory or a missing file) fails,
exactly as `fs::read_to_string` does. -/

/-- A file system snapshot: plain files, keyed by path (list of components). -/
structure FS where
  files : List (List String × String)

/-- First-match association lookup of a path. -/
def lookupPath : List (List String × String) → List String → Option String
  | [], _ => none
  | (q, c) :: rest, p => if p = q then some c else lookupPath rest p

/-- The `fs::read_to_string`: succeeds exactly on plain files of the snapshot. -/
def readToString (fs : FS) (p : List String) : Option String :=
  lookupPath fs.files p

/-- The `Path::is_file`. -/
def isFile (fs : FS) (p : List String) : Bool :=
  (readToString fs p).isSome

/-- Index of the last '.' in a component, if any (recursion gives the
rightmost dot priority, as `Path::extension` does). -/
def lastDotPos : List Char → Option Nat
  | [] => none
  | c :: rest =>
    match lastDotPos rest with
    | some n => some (n + 1)
    | none => if c = '.' then some 0 else none

/-- The `Path::set_extension` on one file-name component: replaces the portion
after the last dot, except that a dot at position 0 (a leading-dot name such
as `.foo`) does not count as starting an extension; with no extension the
new one is appended. -/
def setExtension (s : String) (e : String) : String :=
  let cs := s.toList
  match lastDotPos cs with
  | some p => if p = 0 then String.mk (cs ++ ('.' :: e.toList)) else String.mk (cs.take p ++ ('.' :: e.toList))
  | none => String.mk (cs ++ ('.' :: e.toList))

/-- The `PathBuf::set_extension`: acts on the last component; a path with no
file name (the empty path) is left unchanged. -/
def pathSetExtension : List String → String → List String
  | [], _ => []
  | [s], e => [setExtension s e]
  | s :: s2 :: rest, e => s :: pathSetExtension (s2 :: rest) e

/-- main.rs `lib_file`: joins the key's segments after the first onto the
library root, tries the candidate with the `rs` extension set, and falls
back to the joined path itself.  (The Rust slice `&segs[1..]` panics on an
empty key; `loopFuel` guards that case before calling this.) -/
def lib_file (fs : FS) (root : List String) (segs : List String) : List String :=
  let p := root ++ segs.drop 1
  let cand := pathSetExtension p "rs"
  if isFile fs cand then cand else p

/-! ### The module tree

`struct Module { code: Option<String>, children: BTreeMap<String, Module> }`.
The `BTreeMap` is modelled as an association list kept sorted by key, with
`setChildSorted` the ordered insert-or-replace realizing the `entry` API and
the map's ascending iteration order. -/

/-- main.rs `struct Module`. -/
inductive Module where
  | mk (code : Option String) (children : List (String × Module))

/-- The `code` field. -/
def Module.code : Module → Option String
  | .mk c _ => c

/-- The `children` field. -/
def Module.children : Module → List (String × Module)
  | .mk _ ch => ch

/-- The `Module::default()`. -/
def moduleDefault : Module := .mk none []

/-- The `children.entry(k).or_default()` read side: the child at `k`, or a
default module. -/
def getChild (ch : List (String × Module)) (k : String) : Module :=
  match ch with
  | [] => moduleDefault
  | (k', m) :: rest => if k = k' then m else getChild rest k

/-- Ordered insert-or-replace into the children map (the write-back of the
`BTreeMap::entry` API; keeps keys in ascending order). -/
def setChildSorted (ch : List (String × Module)) (k : String) (v : Module) : List (String × Module) :=
  match ch with
  | [] => [(k, v)]
  | (k', m) :: rest =>
    if k < k' then (k, v) :: (k', m) :: rest
    else if k = k' then (k, v) :: rest
    else (k', m) :: setChildSorted rest k v

/-- Sets the `code` field (`....or_default().code = Some(code)`). -/
def Module.setCode : Module → String → Module
  | .mk _ ch, c => .mk (some c) ch

/-- main.rs `Module::insert`: walks the key's segments, creating default
intermediate children, and stores the code at the final segment. -/
def Module.insert : Module → List String → String → Module
  | m, [], _ => m
  | .mk code ch, [h], c => .mk code (setChildSorted ch h ((getChild ch h).setCode c))
  | .mk code ch, h :: h2 :: rest, c =>
    .mk code (setChildSorted ch h ((getChild ch h).insert (h2 :: rest) c))

/-- The `BTreeMap::contains_key` on the children map. -/
def containsKey (ch : List (String × Module)) (k : String) : Bool :=
  match ch with
  | [] => false
  | (k', _) :: rest => k == k' || containsKey rest k

/-- main.rs `Module::strip_decls`: keeps every item except a module
declaration without body whose name is a key of the children map. -/
def strip_decls (f : File) (childNames : List (String × Module)) : List Item :=
  f.items.filter fun it =>
    match it with
    | .modDecl id => !(containsKey childNames id)
    | _ => true

/-! ### Rendering to token text

`quote!` output is modelled as a string of tokens separated by spaces;
`TokenStream::to_string` is then the identity.  The external `syn` parser
(`parse_file` / `parse2`) and `prettyplease::unparse` are abstract. -/

mutual

/-- Token text of a use tree. -/
def useTreeTokens : UseTree → String
  | .path id sub => id ++ " :: " ++ useTreeTokens sub
  | .group items => "\x7b " ++ useTreeTokensL items ++ "\x7d"
  | .name id => id
  | .rename id asn => id ++ " as " ++ asn
  | .glob => "*"

/-- Token text of the members of a use group. -/
def useTreeTokensL : List UseTree → String
  | [] => ""
  | [t] => useTreeTokens t ++ " "
  | t :: t2 :: ts => useTreeTokens t ++ " , " ++ useTreeTokensL (t2 :: ts)

end

mutual

/-- Token text of one item. -/
def itemTokens : Item → String
  | .itemUse t => "use " ++ useTreeTokens t ++ " ; "
  | .modDecl id => "mod " ++ id ++ " ; "
  | .modBody id items => "mod " ++ id ++ " \x7b " ++ itemsTokens items ++ "\x7d "
  | .other s => s ++ " "

/-- Token text of an item list, in order. -/
def itemsTokens : List Item → String
  | [] => ""
  | it :: rest => itemTokens it ++ itemsTokens rest

end

/-- The external collaborators of the core: `syn::parse_file`,
`syn::parse2::<File>` (on rendered token text) and `prettyplease::unparse`.
These are third-party crates, not code of this repository, so they are
parameters of the embedding. -/
structure Oracle where
  parseFile : String → Option File
  parseTokens : String → Option File
  unparse : File → String

mutual

/-- main.rs `Module::to_tokens`: a node's own text is parsed
(`parse_file(src).expect("parse")` — failure aborts, hence `Except`),
stripped of forwarding declarations of existing children, and wrapped —
together with the children rendered in ascending key order — in a
`pub mod name { ... }` block when the node is named. -/
def toTokens (O : Oracle) : Module → Option String → Except String String
  | .mk code ch, nm =>
    match (match code with
           | none => Except.ok ""
           | some src =>
             match O.parseFile src with
             | none => Except.error "to_tokens: parse"
             | some f => Except.ok (itemsTokens (strip_decls f ch))) with
    | .error e => .error e
    | .ok own =>
      match toTokensL O ch with
      | .error e => .error e
      | .ok kids =>
        match nm with
        | some n => .ok ("pub mod " ++ n ++ " \x7b " ++ own ++ kids ++ "\x7d ")
        | none => .ok (own ++ kids)

/-- The children of a node, rendered and concatenated in map order. -/
def toTokensL (O : Oracle) : List (String × Module) → Except String String
  | [] => .ok ""
  | (n, m) :: rest =>
    match toTokens O m (some n) with
    | .error e => .error e
    | .ok s =>
      match toTokensL O rest with
      | .error e => .error e
      | .ok r => .ok (s ++ r)

end

/-! ### Internal dependency extraction and entry-point collection -/

/-- The dependency leaves contributed by one use tree of a library file
(main.rs `internal_deps` visitor): a `crate::…` tree is collected under the
prefix `["library"]`; a `super::…` tree, when the current path is non-empty,
under the current path with its last segment removed.  (The source's
`segs.pop()` / `base.pop()` after `collect_leaves` act on the by-then
restored prefix vector and are no-ops.) -/
def useDeps (t : UseTree) (cur : List String) : List (List String) :=
  match t with
  | .path id sub =>
    if id = "crate" then collect_leaves sub ["library"]
    else if id = "super" ∧ cur ≠ [] then collect_leaves sub cur.dropLast
    else []
  | _ => []

/-- The `useDeps` over a list of use trees, in visit order. -/
def usesDeps : List UseTree → List String → List (List String)
  | [], _ => []
  | t :: ts, cur => useDeps t cur ++ usesDeps ts cur

/-- main.rs `internal_deps`: all internal (`crate::` / `super::`) leaves of
a parsed library file at module path `cur`. -/
def internal_deps (f : File) (cur : List String) : List (List String) :=
  usesDeps (fileUses f) cur

/-- The contribution of one use tree to the target's entry points
(main.rs `Collector`): only a tree that starts directly with a path segment
equal to the library root is collected. -/
def useCollect (t : UseTree) (root : String) : List (List String) :=
  match t with
  | .path id sub => if id = root then collect_leaves sub [id] else []
  | _ => []

/-- The `useCollect` over a list of use trees, in visit order. -/
def usesCollect : List UseTree → String → List (List String)
  | [], _ => []
  | t :: ts, root => useCollect t root ++ usesCollect ts root

/-- The target's collected entry-point leaves (`Collector` run over the
whole file). -/
def collectTarget (f : File) (root : String) : List (List String) :=
  usesCollect (fileUses f) root

/-- All leaf references of a file: every use tree flattened from the empty
prefix (the spec's `LeafReference`s). -/
def usesLeaves : List UseTree → List (List String)
  | [] => []
  | t :: ts => collect_leaves t [] ++ usesLeaves ts

/-- The `usesLeaves` of a file's use trees. -/
def allLeaves (f : File) : List (List String) :=
  usesLeaves (fileUses f)

/-! ### The dependency-closure loop (main.rs lines 165-193) -/

/-- Outcome of the closure loop: normal completion with the assembled tree,
the visited keys in visit order and the log of paths passed to
`fs::read_to_string`; an abort (library parse error, or the panic of
`&segs[1..]` on an empty key); or fuel exhaustion (an artifact of the
embedding — the Rust loop is unbounded). -/
inductive LoopRes where
  | ok (m : Module) (visited : List Key) (readLog : List Key)
  | fail (msg : String)
  | fuelOut

/-- The `while let Some(path) = queue.pop()` loop: pop from the end of the
queue; skip visited keys; otherwise mark visited, resolve via `lib_file`,
read (a failed read is skipped — the lenient branch), insert the code into
the tree, parse it (failure aborts the run), and push every freshly
discovered dependency key. -/
def loopFuel (O : Oracle) (fs : FS) (root : List String) :
    Nat → Module → List Key → List Key → List Key → LoopRes
  | 0, _, _, _, _ => .fuelOut
  | fuel + 1, m, visited, queue, readLog =>
    match queue.getLast? with
    | none => .ok m visited readLog
    | some path =>
      let queue1 := queue.dropLast
      if visited.contains path then
        loopFuel O fs root fuel m visited queue1 readLog
      else
        let visited1 := visited ++ [path]
        if path.isEmpty then .fail "panic: empty module key"
        else
          let fp := lib_file fs root path
          match readToString fs fp with
          | none => loopFuel O fs root fuel m visited1 queue1 (readLog ++ [fp])
          | some code =>
            let m1 := m.insert path code
            match O.parseFile code with
            | none => .fail "library parse error"
            | some ast =>
              let deps := internal_deps ast path
              let newKeys := (deps.map (fun d => d.dropLast)).filter
                (fun d => !(visited1.contains d))
              loopFuel O fs root fuel m1 visited1 (queue1 ++ newKeys) (readLog ++ [fp])

/-! ### String replacement (str::replace) and the self-reference rewrite -/

/-- Boolean prefix test on character lists. -/
def isPre : List Char → List Char → Bool
  | [], _ => true
  | _ :: _, [] => false
  | p :: ps, c :: cs => p == c && isPre ps cs

/-- Left-to-right, non-overlapping replacement of a pattern in a character
list; the fuel (instantiated with the list's length) makes the recursion
structural.  This is `str::replace`. -/
def replFuel (pat rep : List Char) : Nat → List Char → List Char
  | 0, cs => cs
  | _ + 1, [] => []
  | n + 1, c :: rest =>
    if isPre pat (c :: rest) && !pat.isEmpty then
      rep ++ replFuel pat rep n ((c :: rest).drop pat.length)
    else c :: replFuel pat rep n rest

/-- The `str::replace`. -/
def strReplace (s pat rep : String) : String :=
  String.mk (replFuel pat.toList rep.toList s.toList.length s.toList)

/-- main.rs line 203: `lib_pretty.replace("use crate::", "use crate::library::")`. -/
def rewriteSelfRefs (s : String) : String :=
  strReplace s "use crate::" "use crate::library::"

/-! ### The whole run (main.rs `main`) -/

/-- The separator the output composer prints between target and library
(the `println!` format string, including its trailing newline). -/
def sepText : String := "\n\n// ===== bundled library =====\n\n"

/-- The collected entry leaves of a parsed target (library root "library"). -/
def entriesOf (ast : File) : List Key :=
  collectTarget ast "library"

/-- The seed module keys: entry leaves of more than one segment, with the
final segment popped (main.rs lines 167-173). -/
def seedsOf (ast : File) : List Key :=
  (entriesOf ast).filterMap (fun p => if 1 < p.length then some p.dropLast else none)

/-- main.rs `main`, after argument handling: parse the target (failure is a
fatal error with no output); on an empty entry set print the target verbatim
(`print!`, no trailing newline); otherwise run the closure loop, render the
tree, pretty-print it when the rendered tokens re-parse and fall back to the
raw token text otherwise, rewrite `use crate::` self references, and print
target + separator + library (`println!` appends the final newline).
`.ok` carries the full standard output of a successful run; `.error` is a
diagnostic on standard error with a non-zero exit and no standard output. -/
def runBundler (O : Oracle) (fs : FS) (libRoot : List String) (targetSrc : String)
    (fuel : Nat) : Except String String :=
  match O.parseFile targetSrc with
  | none => .error "target parse error"
  | some targetAst =>
    if (entriesOf targetAst).isEmpty then .ok targetSrc
    else
      match loopFuel O fs libRoot fuel moduleDefault [] (seedsOf targetAst) [] with
      | .fuelOut => .error "fuel exhausted"
      | .fail e => .error e
      | .ok rootMod _ _ =>
        match toTokens O rootMod none with
        | .error e => .error e
        | .ok libTs =>
          let libPretty :=
            match O.parseTokens libTs with
            | some ast2 => O.unparse ast2
            | none => libTs
          .ok (targetSrc ++ sepText ++ rewriteSelfRefs libPretty ++ "\n")

/-- Projection: the standard output of a run, if it succeeded. -/
def outOf : Except String String → Option String
  | .ok s => some s
  | .error _ => none

/-- Projection: the read log of a completed loop. -/
def readLogOf : LoopRes → List Key
  | .ok _ _ l => l
  | _ => []

/-- Projection: the visited list of a completed loop. -/
def visitedOf : LoopRes → List Key
  | .ok _ v _ => v
  | _ => []

/-- Boolean substring test (used only to state counterexamples). -/
def containsSubL : List Char → List Char → Bool
  | [], pat => pat.isEmpty
  | c :: rest, pat => isPre pat (c :: rest) || containsSubL rest pat

/-- Boolean substring test on strings. -/
def containsSub (s pat : String) : Bool :=
  containsSubL s.toList pat.toList

/-! ### Generic helper lemmas -/

/-- A list with a last element is its `dropLast` followed by that element. -/
theorem getLast?_decomp {α : Type _} {q : List α} {k : α} (h : q.getLast? = some k) :
    q = q.dropLast ++ [k] := by
  cases q with
  | nil => simp at h
  | cons a r =>
    have hne : a :: r ≠ [] := by simp
    have hk : (a :: r).getLast hne = k := by
      rw [List.getLast?_eq_getLast (a :: r) hne, Option.some_inj] at h
      exact h
    rw [← hk]
    exact (List.dropLast_append_getLast hne).symm

/-- The `pathSetExtension` acts exactly on the final component. -/
theorem pathSetExtension_concat (p : List String) (s e : String) :
    pathSetExtension (p ++ [s]) e = p ++ [setExtension s e] := by
  induction p with
  | nil => rfl
  | cons a rest ih =>
    cases rest with
    | nil => rfl
    | cons b r =>
      have hstep : pathSetExtension ((a :: b :: r) ++ [s]) e =
          a :: pathSetExtension ((b :: r) ++ [s]) e := rfl
      rw [hstep, ih]
      rfl

/-- With no dot in the component, `setExtension` appends a dot and the
extension. -/
theorem setExtension_append (s e : String) (h : lastDotPos s.toList = none) :
    setExtension s e = s ++ ("." ++ e) := by
  show (match lastDotPos s.toList with
        | some p => if p = 0 then String.mk (s.toList ++ ('.' :: e.toList))
                    else String.mk (s.toList.take p ++ ('.' :: e.toList))
        | none => String.mk (s.toList ++ ('.' :: e.toList))) = s ++ ("." ++ e)
  rw [h]
  cases s with
  | mk data =>
    cases e with
    | mk edata => rfl

/-! ## C2 — the module file resolver

The resolver joins the key's segments (root excluded) onto the library root
and sets the `rs` extension; a plain file at that candidate wins.  But on a
miss the code returns the joined path itself — it never looks for a
directory-index file inside the directory (`lib_file`, main.rs lines 36-47
returns `p`), so that part of the claim is refuted below. -/

/-- File system for the C2 counterexample: no plain file `lib/a.rs`, but a
directory-index file `lib/a/mod.rs` exists. -/
def fsC2 : FS := ⟨[(["lib", "a", "mod.rs"], "pub fn f () \x7b \x7d")]⟩

/-- C2 counterexample: with no plain file at the candidate, the resolver
returns the bare joined directory path, not the directory-index file that
exists inside that directory — refuting "looks for a directory-index file
inside that directory" (reading the returned path subsequently fails). -/
theorem c2_counterexample :
    lib_file fsC2 ["lib"] ["library", "a"] = ["lib", "a"] ∧
    isFile fsC2 ["lib", "a"] = false ∧
    isFile fsC2 ["lib", "a", "mod.rs"] = true ∧
    readToString fsC2 ["lib", "a"] = none := by decide

/-- C2 (amended): the resolver joins the key's segments (root excluded) onto
the library root and appends the source extension (for a dot-free final
component); if a plain file exists at the candidate it is used, and
otherwise the joined path without extension is returned as-is, with no
directory-index lookup. -/
theorem lib_file_eq (fs : FS) (root segs : List String) :
    lib_file fs root segs =
      if isFile fs (pathSetExtension (root ++ segs.drop 1) "rs")
      then pathSetExtension (root ++ segs.drop 1) "rs" else root ++ segs.drop 1 := rfl

/-- C2 (amended): the two resolver branches, and extension appending for a
dot-free final component. -/
theorem c2_amended (fs : FS) (root segs : List String) :
    (isFile fs (pathSetExtension (root ++ segs.drop 1) "rs") = true →
      lib_file fs root segs = pathSetExtension (root ++ segs.drop 1) "rs") ∧
    (isFile fs (pathSetExtension (root ++ segs.drop 1) "rs") = false →
      lib_file fs root segs = root ++ segs.drop 1) ∧
    (∀ p s, root ++ segs.drop 1 = p ++ [s] → lastDotPos s.toList = none →
      pathSetExtension (root ++ segs.drop 1) "rs" = p ++ [s ++ ".rs"]) := by
  refine ⟨fun h => ?_, fun h => ?_, fun p s hps hdot => ?_⟩
  · rw [lib_file_eq, h]
    simp
  · rw [lib_file_eq, h]
    simp
  · rw [hps, pathSetExtension_concat, setExtension_append s "rs" hdot]
    have hrs : (("." : String) ++ "rs") = ".rs" := rfl
    rw [hrs]

/-- File system for the C2 witness: the plain candidate file exists. -/
def fsC2W : FS := ⟨[(["lib", "a.rs"], "pub fn f () \x7b \x7d")]⟩

/-- C2 witness: both hypotheses of `c2_amended` discharged at concrete
inputs. -/
theorem c2_amended_witness :
    lib_file fsC2W ["lib"] ["library", "a"] =
      pathSetExtension (["lib"] ++ (["library", "a"] : List String).drop 1) "rs" ∧
    pathSetExtension (["lib"] ++ (["library", "a"] : List String).drop 1) "rs" =
      ["lib"] ++ ["a" ++ ".rs"] :=
  ⟨(c2_amended fsC2W ["lib"] ["library", "a"]).1 (by decide),
   (c2_amended fsC2W ["lib"] ["library", "a"]).2.2 ["lib"] "a" (by decide) (by decide)⟩

/-! ## C7 — declaration deduplication (`strip_decls`) -/

/-- C7: when a node's own text is rendered, exactly the bare forwarding
declarations (`mod name;` with no body) whose name matches an existing child
of the node are removed; every other item is kept, in its original order
(the result is a sublist), and no stripped-away child declaration survives. -/
theorem c7_strip_decls (f : File) (ch : List (String × Module)) :
    (∀ it, it ∈ strip_decls f ch ↔
      it ∈ f.items ∧ ∀ n, it = Item.modDecl n → containsKey ch n = false) ∧
    List.Sublist (strip_decls f ch) f.items ∧
    ∀ n, containsKey ch n = true → Item.modDecl n ∉ strip_decls f ch := by
  refine ⟨fun it => ?_, List.filter_sublist _, fun n hn hmem => ?_⟩
  · rw [strip_decls, List.mem_filter]
    constructor
    · rintro ⟨hmem, hp⟩
      refine ⟨hmem, fun n hn => ?_⟩
      subst hn
      simpa using hp
    · rintro ⟨hmem, hp⟩
      refine ⟨hmem, ?_⟩
      cases it with
      | modDecl id => simpa using hp id rfl
      | itemUse t => rfl
      | modBody id items => rfl
      | other s => rfl
  · rw [strip_decls, List.mem_filter] at hmem
    simp [hn] at hmem

/-- Target items for the C7 witness. -/
def c7File : File := ⟨[.modDecl "a", .modDecl "b", .other "fn g () \x7b \x7d"]⟩

/-- Children map for the C7 witness: child `b` exists in the tree. -/
def c7Ch : List (String × Module) := [("b", moduleDefault)]

/-- C7 witness: the forwarding declaration of the existing child `b` is
stripped, the declaration of the absent module `a` and the plain code item
are kept in order. -/
theorem c7_witness :
    Item.modDecl "b" ∉ strip_decls c7File c7Ch ∧
    strip_decls c7File c7Ch = [.modDecl "a", .other "fn g () \x7b \x7d"] :=
  ⟨(c7_strip_decls c7File c7Ch).2.2 "b" (by decide), rfl⟩

/-! ## Collector lemmas (shared by C5 and C10) -/

mutual

/-- Every collected leaf extends the prefix it was collected under. -/
theorem collect_leaves_pre : ∀ (t : UseTree) (pre : List String),
    ∀ x ∈ collect_leaves t pre, ∃ suf, x = pre ++ suf
  | .path id sub, pre, x, hx => by
    simp only [collect_leaves] at hx
    obtain ⟨suf, hsuf⟩ := collect_leaves_pre sub (pre ++ [id]) x hx
    exact ⟨[id] ++ suf, by simp [hsuf]⟩
  | .group items, pre, x, hx => by
    simp only [collect_leaves] at hx
    exact collect_leavesL_pre items pre x hx
  | .name id, pre, x, hx => by
    simp only [collect_leaves, List.mem_singleton] at hx
    exact ⟨[id], hx⟩
  | .rename id asn, pre, x, hx => by
    simp only [collect_leaves, List.mem_singleton] at hx
    exact ⟨[id], hx⟩
  | .glob, pre, x, hx => by simp [collect_leaves] at hx

/-- The `collect_leaves_pre` for the members of a group. -/
theorem collect_leavesL_pre : ∀ (ts : List UseTree) (pre : List String),
    ∀ x ∈ collect_leavesL ts pre, ∃ suf, x = pre ++ suf
  | [], pre, x, hx => by simp [collect_leavesL] at hx
  | t :: ts, pre, x, hx => by
    simp only [collect_leavesL, List.mem_append] at hx
    cases hx with
    | inl h => exact collect_leaves_pre t pre x h
    | inr h => exact collect_leavesL_pre ts pre x h

end

/-- A member of `usesCollect` comes from the contribution of one use tree. -/
theorem mem_usesCollect {ts : List UseTree} {root : String} {x : List String}
    (hx : x ∈ usesCollect ts root) : ∃ t ∈ ts, x ∈ useCollect t root := by
  induction ts with
  | nil => simp [usesCollect] at hx
  | cons t rest ih =>
    simp only [usesCollect, List.mem_append] at hx
    cases hx with
    | inl h => exact ⟨t, by simp, h⟩
    | inr h =>
      obtain ⟨t', ht', hx'⟩ := ih h
      exact ⟨t', by simp [ht'], hx'⟩

/-- A collected entry leaf is a leaf reference of the file whose first
segment is the root name. -/
theorem useCollect_leaf {t : UseTree} {root : String} {x : List String}
    (hx : x ∈ useCollect t root) :
    x ∈ collect_leaves t [] ∧ x.head? = some root := by
  cases t with
  | path id sub =>
    simp only [useCollect] at hx
    by_cases hid : id = root
    · rw [if_pos hid] at hx
      subst hid
      constructor
      · simpa [collect_leaves] using hx
      · obtain ⟨suf, hsuf⟩ := collect_leaves_pre sub [id] x hx
        simp [hsuf]
    · rw [if_neg hid] at hx
      simp at hx
  | group items => simp [useCollect] at hx
  | name id => simp [useCollect] at hx
  | rename id asn => simp [useCollect] at hx
  | glob => simp [useCollect] at hx

/-- Leaves of a member tree are leaves of the file. -/
theorem mem_usesLeaves {ts : List UseTree} {t : UseTree} {x : List String}
    (ht : t ∈ ts) (hx : x ∈ collect_leaves t []) : x ∈ usesLeaves ts := by
  induction ts with
  | nil => simp at ht
  | cons t' rest ih =>
    simp only [usesLeaves, List.mem_append]
    rcases List.mem_cons.mp ht with h | h
    · subst h; exact Or.inl hx
    · exact Or.inr (ih h)

/-! ## C5 — the passthrough invariant -/

/-- C5: a target that parses and has no leaf reference whose first segment
is the library root produces exactly the target text (`print!`, no trailing
modification): the collector stays empty, so `main` short-circuits. -/
theorem c5_passthrough (O : Oracle) (fs : FS) (root : List String) (src : String)
    (fuel : Nat) (ast : File) (hp : O.parseFile src = some ast)
    (hno : ∀ l ∈ allLeaves ast, l.head? ≠ some "library") :
    runBundler O fs root src fuel = .ok src := by
  have hempty : entriesOf ast = [] := by
    rw [List.eq_nil_iff_forall_not_mem]
    intro x hx
    obtain ⟨t, ht, hxt⟩ := mem_usesCollect hx
    obtain ⟨hleaf, hhead⟩ := useCollect_leaf hxt
    exact hno x (mem_usesLeaves ht hleaf) hhead
  simp [runBundler, hp, hempty]

/-- Oracle for the C5 witness: the target parses to a file whose only use
tree references `std`. -/
def oC5 : Oracle :=
  ⟨fun s => if s = "use std :: io ;" then some ⟨[.itemUse (.path "std" (.name "io"))]⟩ else none,
   fun _ => none, fun _ => ""⟩

/-- C5 witness: a target referencing only `std` passes through verbatim. -/
theorem c5_witness :
    runBundler oC5 ⟨[]⟩ ["lib"] "use std :: io ;" 3 = .ok "use std :: io ;" :=
  c5_passthrough oC5 ⟨[]⟩ ["lib"] "use std :: io ;" 3
    ⟨[.itemUse (.path "std" (.name "io"))]⟩ rfl (by decide)

/-! ## C10 — only top-level root-path use trees are collected -/

/-- Does a use tree start directly with a path segment equal to `root`?
(The shape `Collector` matches on.) -/
def topPathRoot : UseTree → String → Bool
  | .path id _, root => id == root
  | _, _ => false

/-- C10: entry-point collection only considers use trees that begin directly
with a path segment equal to the library root; a target whose library
references all sit inside a top-level group or are a bare root name collects
nothing and passes through unchanged. -/
theorem c10_top_level_only (O : Oracle) (fs : FS) (root : List String) (src : String)
    (fuel : Nat) (ast : File) (hp : O.parseFile src = some ast)
    (htop : ∀ t ∈ fileUses ast, topPathRoot t "library" = false) :
    collectTarget ast "library" = [] ∧ runBundler O fs root src fuel = .ok src := by
  have hempty : usesCollect (fileUses ast) "library" = [] := by
    have hgen : ∀ ts : List UseTree, (∀ t ∈ ts, topPathRoot t "library" = false) →
        usesCollect ts "library" = [] := by
      intro ts
      induction ts with
      | nil => intro _; rfl
      | cons t rest ih =>
        intro hall
        have ht : topPathRoot t "library" = false := hall t (by simp)
        have hrest := ih (fun t' ht' => hall t' (by simp [ht']))
        have hone : useCollect t "library" = [] := by
          cases t with
          | path id sub =>
            have : ¬(id = "library") := by
              intro hid
              rw [topPathRoot, hid] at ht
              simp at ht
            simp [useCollect, this]
          | group items => rfl
          | name id => rfl
          | rename id asn => rfl
          | glob => rfl
        simp [usesCollect, hone, hrest]
    exact hgen _ htop
  have hempty' : entriesOf ast = [] := hempty
  exact ⟨hempty', by simp [runBundler, hp, hempty']⟩

/-- The C10 witness target: its only library references sit inside a
top-level brace group (`use { library::a::b, std::c };`) or are a bare root
name (`use library;`). -/
def c10File : File :=
  ⟨[.itemUse (.group [.path "library" (.path "a" (.name "b")), .path "std" (.name "c")]),
    .itemUse (.name "library")]⟩

/-- Oracle for the C10 witness. -/
def oC10 : Oracle :=
  ⟨fun s => if s = "grouped" then some c10File else none, fun _ => none, fun _ => ""⟩

/-- C10 witness: the grouped/bare-name target collects no entry points and
passes through. -/
theorem c10_witness :
    collectTarget c10File "library" = [] ∧
    runBundler oC10 ⟨[]⟩ ["lib"] "grouped" 3 = .ok "grouped" :=
  c10_top_level_only oC10 ⟨[]⟩ ["lib"] "grouped" 3 c10File rfl (by decide)

/-! ## C3 — missing dependency handling

The claim says the run aborts (strict) on a missing module file.  The code's
closure loop instead hits `else { continue; }` (main.rs lines 190-192): the
key is marked visited, nothing is loaded, the run completes successfully and
still prints merged output.  There is no strict/lenient switch at all. -/

/-- Target for the C3 scenario: one library reference. -/
def tgtC3 : String := "use library :: a :: f ;"

/-- Parsed target for the C3 scenario. -/
def astC3 : File := ⟨[.itemUse (.path "library" (.path "a" (.name "f")))]⟩

/-- Oracle for the C3 scenario. -/
def oC3 : Oracle :=
  ⟨fun s => if s = tgtC3 then some astC3 else none, fun _ => none, fun _ => ""⟩

/-- Empty file system: the referenced module has no backing file. -/
def fsC3 : FS := ⟨[]⟩

/-- C3 counterexample: the target references `library::a`, which has no
backing file, yet the run exits successfully and produces merged output on
standard out — refuting the claimed strict abort with no output. -/
theorem c3_counterexample :
    readToString fsC3 (lib_file fsC3 ["lib"] ["library", "a"]) = none ∧
    outOf (runBundler oC3 fsC3 ["lib"] tgtC3 2) = some (tgtC3 ++ sepText ++ "\n") := by
  constructor
  · decide
  · rfl

/-- C3 (amended): when a resolved module key has no corresponding file, the
loop records the key as visited and simply continues with the rest of the
queue — the lenient behavior, with no strict variant. -/
theorem c3_amended (O : Oracle) (fs : FS) (root : List String) (fuel : Nat)
    (m : Module) (vis q log : List Key) (path : Key)
    (hnew : vis.contains path = false) (hne : path.isEmpty = false)
    (hmiss : readToString fs (lib_file fs root path) = none) :
    loopFuel O fs root (fuel + 1) m vis (q ++ [path]) log =
      loopFuel O fs root fuel m (vis ++ [path]) q (log ++ [lib_file fs root path]) := by
  have hnotmem : path ∉ vis := by simpa using hnew
  simp [loopFuel, List.getLast?_concat, List.dropLast_concat, hnotmem, hne, hmiss]

/-- C3 witness: `c3_amended` at the concrete missing-dependency input. -/
theorem c3_witness :
    loopFuel oC3 fsC3 ["lib"] 2 moduleDefault [] [["library", "a"]] [] =
      loopFuel oC3 fsC3 ["lib"] 1 moduleDefault [["library", "a"]] [] [["lib", "a"]] := by
  have h := c3_amended oC3 fsC3 ["lib"] 1 moduleDefault [] [] [] ["library", "a"]
    rfl rfl rfl
  exact h

/-! ## C8 — render re-parse failure is not fatal -/

/-- C8: if the rendered token text fails to re-parse, the run still
succeeds: the raw token text is emitted unformatted (after the self-reference
rewrite), composed with the target on standard out. -/
theorem c8_render_fallback (O : Oracle) (fs : FS) (root : List String) (src : String)
    (fuel : Nat) (ast : File) (M : Module) (V L : List Key) (libTs : String)
    (hp : O.parseFile src = some ast)
    (hne : (entriesOf ast).isEmpty = false)
    (hloop : loopFuel O fs root fuel moduleDefault [] (seedsOf ast) [] = .ok M V L)
    (ht : toTokens O M none = .ok libTs)
    (hre : O.parseTokens libTs = none) :
    runBundler O fs root src fuel = .ok (src ++ sepText ++ rewriteSelfRefs libTs ++ "\n") := by
  simp [runBundler, hp, hne, hloop, ht, hre]

/-- C8 witness: with the re-parse oracle always failing, the concrete run
emits the raw (empty, here) token text and succeeds. -/
theorem c8_witness :
    runBundler oC3 fsC3 ["lib"] tgtC3 2 =
      .ok (tgtC3 ++ sepText ++ rewriteSelfRefs "" ++ "\n") :=
  c8_render_fallback oC3 fsC3 ["lib"] tgtC3 2 astC3 moduleDefault
    [["library", "a"]] [["lib", "a"]] "" rfl rfl rfl rfl rfl

/-! ## C4 — the self-reference rewrite

The rewriter is the literal text replacement
`replace("use crate::", "use crate::library::")` (main.rs line 203).  Root
relative references that do not occur in that exact textual form — path
expressions inside code, or `use` items in the spaced token text emitted on
the fallback path — are left unqualified, refuting "every textual
reference … is rewritten". -/

/-- Target for the C4 scenario. -/
def tgt4 : String := "use library :: a :: g ;"

/-- Parsed target for the C4 scenario. -/
def ast4 : File := ⟨[.itemUse (.path "library" (.path "a" (.name "g")))]⟩

/-- The loaded library file: its body contains a root-relative path
expression `crate :: b :: h ()`. -/
def libA4src : String := "fn g () \x7b crate :: b :: h () ; \x7d"

/-- Oracle for the C4 scenario (re-parse fails, so the raw token text is
emitted). -/
def o4 : Oracle :=
  ⟨fun s => if s = tgt4 then some ast4
    else if s = libA4src then some ⟨[.other libA4src]⟩ else none,
   fun _ => none, fun _ => ""⟩

/-- File system for the C4 scenario. -/
def fs4 : FS := ⟨[(["lib", "a.rs"], libA4src)]⟩

/-- The rendered library text of the C4 scenario. -/
def libText4 : String :=
  "pub mod library \x7b pub mod a \x7b fn g () \x7b crate :: b :: h () ; \x7d \x7d \x7d "

/-- The assembled tree of the C4 scenario. -/
def m4tree : Module := .mk none [("library", .mk none [("a", .mk (some libA4src) [])])]

/-- C4 counterexample: the emitted library text still contains the
root-relative reference `crate :: b :: h` and no qualified
`crate :: library` form — the rewrite touched nothing, because the
reference does not occur as the literal text `use crate::`. -/
theorem c4_counterexample :
    outOf (runBundler o4 fs4 ["lib"] tgt4 2) = some (tgt4 ++ sepText ++ libText4 ++ "\n") ∧
    containsSub libText4 "crate :: b :: h" = true ∧
    rewriteSelfRefs libText4 = libText4 ∧
    containsSub libText4 "crate :: library" = false := by
  refine ⟨rfl, by decide, by decide, by decide⟩

/-- C4 (amended): after rendering, the emitted library text is exactly the
pretty-printed (or, on re-parse failure, raw) render with every occurrence
of the literal text `use crate::` replaced by `use crate::library::`
(`rewriteSelfRefs`); references in any other textual form are not
rewritten. -/
theorem c4_amended (O : Oracle) (fs : FS) (root : List String) (src : String)
    (fuel : Nat) (ast : File) (M : Module) (V L : List Key) (libTs : String)
    (hp : O.parseFile src = some ast)
    (hne : (entriesOf ast).isEmpty = false)
    (hloop : loopFuel O fs root fuel moduleDefault [] (seedsOf ast) [] = .ok M V L)
    (ht : toTokens O M none = .ok libTs) :
    runBundler O fs root src fuel = .ok (src ++ sepText ++
      rewriteSelfRefs (match O.parseTokens libTs with
                       | some ast2 => O.unparse ast2
                       | none => libTs) ++ "\n") := by
  simp [runBundler, hp, hne, hloop, ht]

/-- C4 witness: `c4_amended` at the concrete inputs of the scenario. -/
theorem c4_witness :
    runBundler o4 fs4 ["lib"] tgt4 2 = .ok (tgt4 ++ sepText ++
      rewriteSelfRefs (match o4.parseTokens libText4 with
                       | some ast2 => o4.unparse ast2
                       | none => libText4) ++ "\n") :=
  c4_amended o4 fs4 ["lib"] tgt4 2 ast4 m4tree
    [["library", "a"]] [["lib", "a.rs"]] libText4 rfl rfl rfl rfl

/-! ## C6 — determinism: order independence and sorted serialization

The assembled tree is keyed (a `BTreeMap` at every node), so the result of
the loop's insertions does not depend on the order the work queue was
processed in, and rendering traverses children in ascending key order.  The
lemmas below prove the commutation of `Module.insert` for distinct keys, the
permutation invariance of building a tree from (key, code) pairs, and the
sortedness invariant of every children map. -/

/-- Reading back the child just written. -/
theorem getChild_set_same (ch : List (String × Module)) (k : String) (v : Module) :
    getChild (setChildSorted ch k v) k = v := by
  induction ch with
  | nil => simp [setChildSorted, getChild]
  | cons p rest ih =>
    obtain ⟨k', m⟩ := p
    by_cases h1 : k < k'
    · simp [setChildSorted, h1, getChild]
    · by_cases h2 : k = k'
      · simp [setChildSorted, h1, h2, getChild]
      · simp [setChildSorted, h1, h2, getChild, ih]

/-- Writing one key does not change the child at another. -/
theorem getChild_set_ne (ch : List (String × Module)) (k k' : String) (v : Module)
    (h : k' ≠ k) : getChild (setChildSorted ch k v) k' = getChild ch k' := by
  induction ch with
  | nil => simp [setChildSorted, getChild, h]
  | cons p rest ih =>
    obtain ⟨a, m⟩ := p
    by_cases h1 : k < a
    · simp [setChildSorted, h1, getChild, h]
    · by_cases h2 : k = a
      · subst h2
        simp [setChildSorted, h1, getChild, h]
      · by_cases h3 : k' = a
        · simp [setChildSorted, h1, h2, getChild, h3]
        · simp [setChildSorted, h1, h2, getChild, h3, ih]

/-- Overwriting the same key twice keeps only the second write. -/
theorem set_set_same (ch : List (String × Module)) (k : String) (v v' : Module) :
    setChildSorted (setChildSorted ch k v) k v' = setChildSorted ch k v' := by
  induction ch with
  | nil => simp [setChildSorted, lt_irrefl]
  | cons p rest ih =>
    obtain ⟨a, m⟩ := p
    by_cases h1 : k < a
    · simp [setChildSorted, h1, lt_irrefl]
    · by_cases h2 : k = a
      · subst h2
        simp [setChildSorted, h1, lt_irrefl]
      · simp [setChildSorted, h1, h2, ih]

/-- Writes at distinct keys commute. -/
theorem set_set_comm (k1 k2 : String) (v1 v2 : Module) (h : k1 ≠ k2) :
    ∀ ch, setChildSorted (setChildSorted ch k1 v1) k2 v2 =
      setChildSorted (setChildSorted ch k2 v2) k1 v1 := by
  intro ch
  induction ch with
  | nil =>
    rcases lt_trichotomy k1 k2 with hlt | heq | hgt
    · simp [setChildSorted, hlt, lt_asymm hlt, hlt.ne, hlt.ne']
    · exact absurd heq h
    · simp [setChildSorted, hgt, lt_asymm hgt, hgt.ne, hgt.ne']
  | cons p rest ih =>
    obtain ⟨a, m⟩ := p
    rcases lt_trichotomy k1 a with h1 | h1 | h1 <;> rcases lt_trichotomy k2 a with h2 | h2 | h2
    · -- both below a: order by k1 vs k2
      rcases lt_trichotomy k1 k2 with hk | hk | hk
      · simp [setChildSorted, h1, h2, hk, lt_asymm hk, hk.ne, hk.ne']
      · exact absurd hk h
      · simp [setChildSorted, h1, h2, hk, lt_asymm hk, hk.ne, hk.ne']
    · subst h2
      simp [setChildSorted, h1, lt_asymm h1, h1.ne, h1.ne', h]
    · have hk : k1 < k2 := h1.trans h2
      simp [setChildSorted, h1, h2, lt_asymm h2, h2.ne', hk, lt_asymm hk, hk.ne, hk.ne']
    · subst h1
      simp [setChildSorted, h2, lt_asymm h2, h2.ne, h2.ne', h, Ne.symm h]
    · exact absurd (h1.trans h2.symm) h
    · subst h1
      simp [setChildSorted, h2, lt_asymm h2, h2.ne, h2.ne', h, Ne.symm h, lt_irrefl]
    · have hk : k2 < k1 := h2.trans h1
      simp [setChildSorted, h1, h2, lt_asymm h1, h1.ne', hk, lt_asymm hk, hk.ne, hk.ne']
    · subst h2
      simp [setChildSorted, h1, lt_asymm h1, h1.ne', h, Ne.symm h, lt_irrefl]
    · simp [setChildSorted, h1, h2, lt_asymm h1, lt_asymm h2, h1.ne', h2.ne', ih]

/-- The `Module::insert` with an empty key list is the identity. -/
theorem insert_nil (m : Module) (c : String) : m.insert [] c = m := by
  cases m
  rfl

/-- One step of `Module::insert`: what happens to the child at the head
segment (`setCode` on the last segment, recursion otherwise). -/
def childInsert (t : List String) (c : String) (child : Module) : Module :=
  match t with
  | [] => child.setCode c
  | x :: xs => child.insert (x :: xs) c

/-- Unfolding `Module::insert` on a nonempty key. -/
theorem insert_cons (code : Option String) (ch : List (String × Module))
    (h : String) (t : List String) (c : String) :
    (Module.mk code ch).insert (h :: t) c =
      .mk code (setChildSorted ch h (childInsert t c (getChild ch h))) := by
  cases t <;> rfl

/-- The `setCode` commutes with insertion along a nonempty key. -/
theorem insert_setCode (mm : Module) (x : String) (xs : List String) (c c' : String) :
    (mm.setCode c').insert (x :: xs) c = (mm.insert (x :: xs) c).setCode c' := by
  cases mm with
  | mk cd ch =>
    rw [Module.setCode, insert_cons, insert_cons, Module.setCode]

/-- Insertions at distinct keys commute. -/
theorem insert_comm : ∀ (p1 : List String) (m : Module) (p2 : List String) (c1 c2 : String),
    p1 ≠ p2 → (m.insert p1 c1).insert p2 c2 = (m.insert p2 c2).insert p1 c1
  | [], m, p2, c1, c2, _ => by rw [insert_nil, insert_nil]
  | h1 :: t1, m, [], c1, c2, _ => by rw [insert_nil, insert_nil]
  | h1 :: t1, .mk code ch, h2 :: t2, c1, c2, hne => by
    by_cases hh : h1 = h2
    · subst hh
      have ht : t1 ≠ t2 := by
        intro he
        exact hne (by rw [he])
      rw [insert_cons, insert_cons, getChild_set_same, set_set_same,
          insert_cons, insert_cons, getChild_set_same, set_set_same]
      have hci : childInsert t2 c2 (childInsert t1 c1 (getChild ch h1)) =
          childInsert t1 c1 (childInsert t2 c2 (getChild ch h1)) := by
        match t1, t2, ht with
        | [], [], ht => exact absurd rfl ht
        | [], x :: xs, _ =>
          exact insert_setCode (getChild ch h1) x xs c2 c1
        | x :: xs, [], _ =>
          exact (insert_setCode (getChild ch h1) x xs c1 c2).symm
        | x :: xs, y :: ys, ht =>
          exact insert_comm (x :: xs) (getChild ch h1) (y :: ys) c1 c2 ht
      rw [hci]
    · rw [insert_cons, insert_cons, getChild_set_ne ch h1 h2 _ (Ne.symm hh),
          set_set_comm h1 h2 _ _ hh,
          insert_cons, insert_cons, getChild_set_ne ch h2 h1 _ hh]

/-- The tree built by folding `Module::insert` over a list of
(module key, code) pairs — what the closure loop's insertions amount to. -/
def pairsToTree (l : List (Key × String)) : Module :=
  l.foldl (fun m pc => m.insert pc.1 pc.2) moduleDefault

/-- Every children map of the tree is sorted by key, recursively — the
`BTreeMap` invariant, which makes rendering traverse children in ascending
segment order. -/
inductive SortedMod : Module → Prop where
  | mk {code : Option String} {ch : List (String × Module)} :
      ch.Pairwise (fun a b => a.1 < b.1) →
      (∀ p ∈ ch, SortedMod p.2) → SortedMod (.mk code ch)

/-- The empty module is sorted. -/
theorem sortedMod_default : SortedMod moduleDefault :=
  .mk (by simp) (by simp)

/-- Members of the written map are the new pair or old members. -/
theorem mem_setChildSorted {ch : List (String × Module)} {k : String} {v : Module}
    {p : String × Module} (hp : p ∈ setChildSorted ch k v) : p = (k, v) ∨ p ∈ ch := by
  induction ch with
  | nil => simpa [setChildSorted] using hp
  | cons q rest ih =>
    obtain ⟨a, m⟩ := q
    rw [setChildSorted] at hp
    split at hp
    · rcases List.mem_cons.mp hp with h | h
      · exact Or.inl h
      · exact Or.inr h
    · split at hp
      · rcases List.mem_cons.mp hp with h | h
        · exact Or.inl h
        · exact Or.inr (List.mem_cons_of_mem _ h)
      · rcases List.mem_cons.mp hp with h | h
        · exact Or.inr (by simp [h])
        · rcases ih h with h' | h'
          · exact Or.inl h'
          · exact Or.inr (List.mem_cons_of_mem _ h')

/-- Ordered insert-or-replace preserves key sortedness. -/
theorem pairwise_set (ch : List (String × Module)) (k : String) (v : Module)
    (h : ch.Pairwise (fun a b => a.1 < b.1)) :
    (setChildSorted ch k v).Pairwise (fun a b => a.1 < b.1) := by
  induction ch with
  | nil => simp [setChildSorted]
  | cons p rest ih =>
    obtain ⟨a, m⟩ := p
    rw [List.pairwise_cons] at h
    obtain ⟨ha, hrest⟩ := h
    by_cases h1 : k < a
    · rw [setChildSorted]
      simp only [h1, if_true]
      rw [List.pairwise_cons]
      refine ⟨?_, by rw [List.pairwise_cons]; exact ⟨ha, hrest⟩⟩
      intro b hb
      rcases List.mem_cons.mp hb with hb | hb
      · rw [hb]
        exact h1
      · exact h1.trans (ha b hb)
    · by_cases h2 : k = a
      · subst h2
        rw [setChildSorted]
        simp only [lt_irrefl, if_false, if_true, if_pos rfl]
        rw [List.pairwise_cons]
        exact ⟨ha, hrest⟩
      · rw [setChildSorted]
        simp only [h1, h2, if_false]
        rw [List.pairwise_cons]
        refine ⟨?_, ih hrest⟩
        intro b hb
        rcases mem_setChildSorted hb with hb | hb
        · rw [hb]
          rcases lt_trichotomy a k with hk | hk | hk
          · exact hk
          · exact absurd hk.symm h2
          · exact absurd hk h1
        · exact ha b hb

/-- The `setCode` preserves sortedness. -/
theorem sortedMod_setCode {m : Module} (h : SortedMod m) (c : String) :
    SortedMod (m.setCode c) := by
  cases m with
  | mk cd ch =>
    cases h with
    | mk hp hm => exact .mk hp hm

/-- The child read out of a sorted map is sorted. -/
theorem sortedMod_getChild {ch : List (String × Module)}
    (h : ∀ p ∈ ch, SortedMod p.2) (k : String) : SortedMod (getChild ch k) := by
  induction ch with
  | nil => exact sortedMod_default
  | cons p rest ih =>
    obtain ⟨a, m⟩ := p
    rw [getChild]
    by_cases h1 : k = a
    · simp only [h1, if_true, if_pos rfl]
      exact h (a, m) (by simp)
    · simp only [h1, if_false]
      exact ih (fun q hq => h q (List.mem_cons_of_mem _ hq))

/-- The `Module::insert` preserves the sortedness invariant. -/
theorem sortedMod_insert : ∀ (p : List String) (m : Module) (c : String),
    SortedMod m → SortedMod (m.insert p c)
  | [], m, c, h => by rwa [insert_nil]
  | h1 :: t, .mk code ch, c, h => by
    rw [insert_cons]
    cases h with
    | mk hp hm =>
      have hchild : SortedMod (childInsert t c (getChild ch h1)) := by
        match t with
        | [] => exact sortedMod_setCode (sortedMod_getChild hm h1) c
        | x :: xs => exact sortedMod_insert (x :: xs) (getChild ch h1) c (sortedMod_getChild hm h1)
      refine .mk (pairwise_set ch h1 _ hp) ?_
      intro q hq
      rcases mem_setChildSorted hq with h' | h'
      · rw [h']
        exact hchild
      · exact hm q h'

/-- C6: building the tree from the loaded (key, code) pairs is invariant
under permutation of the insertion order, provided the keys are distinct
(which the visited set guarantees); and the resulting tree satisfies the
sorted-children invariant at every node, so serialization visits segments
in ascending name order, independent of work-queue processing order. -/
theorem c6_deterministic_tree (l l' : List (Key × String))
    (hperm : l.Perm l') (hkeys : l.Pairwise (fun a b => a.1 ≠ b.1)) :
    pairsToTree l = pairsToTree l' ∧ SortedMod (pairsToTree l) := by
  constructor
  · refine hperm.foldl_eq' ?_ moduleDefault
    intro x hx y hy z
    by_cases hxy : x = y
    · rw [hxy]
    · have hne : x.1 ≠ y.1 := hkeys.forall (fun a b hab => hab.symm) hx hy hxy
      exact insert_comm x.1 z y.1 x.2 y.2 hne
  · rw [pairsToTree]
    have hgen : ∀ (ll : List (Key × String)) (m : Module), SortedMod m →
        SortedMod (ll.foldl (fun m pc => m.insert pc.1 pc.2) m) := by
      intro ll
      induction ll with
      | nil => intro m hm; exact hm
      | cons p rest ih =>
        intro m hm
        exact ih _ (sortedMod_insert p.1 m p.2 hm)
    exact hgen l moduleDefault sortedMod_default

/-- C6 witness: two opposite insertion orders of the same distinct-key pairs
yield the same (sorted) tree. -/
theorem c6_witness :
    pairsToTree [(["library", "b"], "B"), (["library", "a"], "A")] =
      pairsToTree [(["library", "a"], "A"), (["library", "b"], "B")] ∧
    SortedMod (pairsToTree [(["library", "b"], "B"), (["library", "a"], "A")]) :=
  c6_deterministic_tree _ _ (by decide) (by decide)

/-! ## C1 — closure loop invariants

What the loop actually guarantees is per-ModuleKey: each distinct key is
read and parsed at most once (the visited set), and the visited set is
exactly the set of keys reachable from the seed queue through internal
references of successfully read and parsed files.  Per *file* the claim
fails, because `lib_file` ignores the key's first segment: two distinct keys
can resolve to the same file, which is then read and parsed twice (see
`c1_counterexample`). -/

/-- Keys reachable from the seed queue: the seeds themselves, and the
popped-dependency key of any internal reference of a file that a reachable
key resolves to, reads and parses. -/
inductive Reach (O : Oracle) (fs : FS) (root : List String) (seeds : List Key) : Key → Prop where
  | seed {k : Key} : k ∈ seeds → Reach O fs root seeds k
  | step {k : Key} {code : String} {ast : File} {d : List String} :
      Reach O fs root seeds k →
      readToString fs (lib_file fs root k) = some code →
      O.parseFile code = some ast →
      d ∈ internal_deps ast k →
      Reach O fs root seeds d.dropLast

/-- A list with no last element is empty. -/
theorem getLast?_none {α : Type _} {q : List α} (h : q.getLast? = none) : q = [] := by
  cases q with
  | nil => rfl
  | cons a r =>
    rw [List.getLast?_eq_getLast (a :: r) (by simp)] at h
    exact absurd h (by simp)

/-- The bundle of invariants of one completed (`.ok`) run of the closure
loop, proved by one induction on the fuel:
1. the initial visited set and every queued key end up in the final visited
   list;
2. the visited list stays duplicate-free;
3. the read log is exactly the visited keys' resolved paths, in order;
4. the final visited set is closed under dependencies of freshly visited
   keys; and
5. the final visited set is contained in any predicate holding on the
   initial state and closed under the dependency step. -/
theorem loop_master (O : Oracle) (fs : FS) (root : List String) :
    ∀ (fuel : Nat) (m : Module) (vis q log : List Key) (M : Module) (V L : List Key),
      loopFuel O fs root fuel m vis q log = .ok M V L →
      ((∀ k ∈ vis, k ∈ V) ∧ (∀ k ∈ q, k ∈ V)) ∧
      (vis.Nodup → V.Nodup) ∧
      (log = vis.map (lib_file fs root) → L = V.map (lib_file fs root)) ∧
      (∀ k, k ∈ V → k ∉ vis →
        ∀ code ast, readToString fs (lib_file fs root k) = some code →
          O.parseFile code = some ast →
          ∀ d ∈ internal_deps ast k, d.dropLast ∈ V) ∧
      (∀ P : Key → Prop, (∀ k ∈ vis, P k) → (∀ k ∈ q, P k) →
        (∀ k code ast, P k → readToString fs (lib_file fs root k) = some code →
          O.parseFile code = some ast → ∀ d ∈ internal_deps ast k, P d.dropLast) →
        ∀ k ∈ V, P k) := by
  intro fuel
  induction fuel with
  | zero =>
    intro m vis q log M V L h
    simp [loopFuel] at h
  | succ n ih =>
    intro m vis q log M V L h
    simp only [loopFuel] at h
    cases hq : q.getLast? with
    | none =>
      rw [hq] at h
      have hqnil : q = [] := getLast?_none hq
      cases h
      subst hqnil
      refine ⟨⟨fun k hk => hk, by simp⟩, id, id, ?_, ?_⟩
      · intro k hk hnk
        exact absurd hk hnk
      · intro P hvis _ _ k hk
        exact hvis k hk
    | some path =>
      rw [hq] at h
      simp only at h
      have hqd : q = q.dropLast ++ [path] := getLast?_decomp hq
      have hpathq : path ∈ q := by
        rw [hqd]
        simp
      have hsubq : ∀ k ∈ q.dropLast, k ∈ q := by
        intro k hk
        rw [hqd]
        exact List.mem_append_left _ hk
      split at h
      · -- path already visited: plain continuation
        rename_i hcont
        have hmem : path ∈ vis := by simpa using hcont
        obtain ⟨⟨ih1, ih1q⟩, ih2, ih3, ih4, ih5⟩ := ih m vis q.dropLast log M V L h
        refine ⟨⟨ih1, ?_⟩, ih2, ih3, ih4, ?_⟩
        · intro k hk
          rw [hqd] at hk
          rcases List.mem_append.mp hk with hk | hk
          · exact ih1q k hk
          · rw [List.mem_singleton.mp hk]
            exact ih1 path hmem
        · intro P hvis hq' hstep
          exact ih5 P hvis (fun k hk => hq' k (hsubq k hk)) hstep
      · -- fresh key
        rename_i hcont
        have hnmem : path ∉ vis := by simpa using hcont
        split at h
        · exact absurd h (by simp)
        · rename_i hempty
          have hpne : path ≠ [] := by
            intro he
            rw [he] at hempty
            exact hempty rfl
          have hvisq : ∀ k, k ∈ vis ++ [path] → k ∈ vis ∨ k = path := by
            intro k hk
            rcases List.mem_append.mp hk with hk | hk
            · exact Or.inl hk
            · exact Or.inr (List.mem_singleton.mp hk)
          cases hread : readToString fs (lib_file fs root path) with
          | none =>
            simp only [hread] at h
            obtain ⟨⟨ih1, ih1q⟩, ih2, ih3, ih4, ih5⟩ :=
              ih m (vis ++ [path]) q.dropLast (log ++ [lib_file fs root path]) M V L h
            have hvisV : ∀ k ∈ vis, k ∈ V := fun k hk => ih1 k (List.mem_append_left _ hk)
            have hpathV : path ∈ V := ih1 path (by simp)
            refine ⟨⟨hvisV, ?_⟩, ?_, ?_, ?_, ?_⟩
            · intro k hk
              rw [hqd] at hk
              rcases List.mem_append.mp hk with hk | hk
              · exact ih1q k hk
              · rw [List.mem_singleton.mp hk]
                exact hpathV
            · intro hnd
              exact ih2 (hnd.append (by simp) (by simpa using hnmem))
            · intro hlog
              refine ih3 ?_
              simp [hlog]
            · intro k hkV hkvis code ast hr hp d hd
              by_cases hkp : k = path
              · rw [hkp] at hr
                rw [hr] at hread
                exact absurd hread (by simp)
              · refine ih4 k hkV ?_ code ast hr hp d hd
                intro hk'
                rcases hvisq k hk' with hk' | hk'
                · exact hkvis hk'
                · exact hkp hk'
            · intro P hvis' hq' hstep
              refine ih5 P ?_ (fun k hk => hq' k (hsubq k hk)) hstep
              intro k hk
              rcases hvisq k hk with hk | hk
              · exact hvis' k hk
              · rw [hk]
                exact hq' path hpathq
          | some code =>
            simp only [hread] at h
            cases hparse : O.parseFile code with
            | none =>
              simp only [hparse] at h
              exact absurd h (by simp)
            | some ast =>
              simp only [hparse] at h
              obtain ⟨⟨ih1, ih1q⟩, ih2, ih3, ih4, ih5⟩ :=
                ih (m.insert path code) (vis ++ [path])
                  (q.dropLast ++ ((internal_deps ast path).map (fun d => d.dropLast)).filter
                    (fun d => !((vis ++ [path]).contains d)))
                  (log ++ [lib_file fs root path]) M V L h
              have hvisV : ∀ k ∈ vis, k ∈ V := fun k hk => ih1 k (List.mem_append_left _ hk)
              have hpathV : path ∈ V := ih1 path (by simp)
              have hdepV : ∀ d ∈ internal_deps ast path, d.dropLast ∈ V := by
                intro d hd
                by_cases hdv : d.dropLast ∈ vis ++ [path]
                · exact ih1 _ hdv
                · refine ih1q _ (List.mem_append_right _ ?_)
                  rw [List.mem_filter]
                  refine ⟨List.mem_map_of_mem _ hd, ?_⟩
                  simpa using hdv
              refine ⟨⟨hvisV, ?_⟩, ?_, ?_, ?_, ?_⟩
              · intro k hk
                rw [hqd] at hk
                rcases List.mem_append.mp hk with hk | hk
                · exact ih1q k (List.mem_append_left _ hk)
                · rw [List.mem_singleton.mp hk]
                  exact hpathV
              · intro hnd
                exact ih2 (hnd.append (by simp) (by simpa using hnmem))
              · intro hlog
                refine ih3 ?_
                simp [hlog]
              · intro k hkV hkvis code' ast' hr hp d hd
                by_cases hkp : k = path
                · subst hkp
                  rw [hr] at hread
                  have hcode : code' = code := by
                    injection hread with hh
                  subst hcode
                  rw [hp] at hparse
                  have hast : ast' = ast := by
                    injection hparse with hh
                  subst hast
                  exact hdepV d hd
                · refine ih4 k hkV ?_ code' ast' hr hp d hd
                  intro hk'
                  rcases hvisq k hk' with hk' | hk'
                  · exact hkvis hk'
                  · exact hkp hk'
              · intro P hvis' hq' hstep
                have hPpath : P path := hq' path hpathq
                refine ih5 P ?_ ?_ hstep
                · intro k hk
                  rcases hvisq k hk with hk | hk
                  · exact hvis' k hk
                  · rw [hk]
                    exact hPpath
                · intro k hk
                  rcases List.mem_append.mp hk with hk | hk
                  · exact hq' k (hsubq k hk)
                  · rw [List.mem_filter] at hk
                    obtain ⟨d, hd, rfl⟩ := List.mem_map.mp hk.1
                    exact hstep path code ast hPpath hread hparse d hd

/-- C1 (amended): in a completed run of the closure loop started from the
seed queue, (a) the visited module keys are pairwise distinct, (b) the read
log is exactly one `fs::read_to_string` call per visited key, at that key's
resolved path, in visit order, and (c) a key is visited exactly when it is
transitively reachable from the seeds through internal references — so each
distinct *key* is read and parsed at most once and nothing unreachable is
ever read. -/
theorem c1_amended (O : Oracle) (fs : FS) (root : List String) (q0 : List Key)
    (fuel : Nat) (M : Module) (V L : List Key)
    (hrun : loopFuel O fs root fuel moduleDefault [] q0 [] = .ok M V L) :
    V.Nodup ∧ L = V.map (lib_file fs root) ∧
    (∀ k, k ∈ V ↔ Reach O fs root q0 k) := by
  obtain ⟨⟨h1, h1q⟩, h2, h3, h4, h5⟩ :=
    loop_master O fs root fuel moduleDefault [] q0 [] M V L hrun
  refine ⟨h2 (by simp), h3 (by simp), fun k => ⟨?_, ?_⟩⟩
  · intro hk
    refine h5 (Reach O fs root q0) (by simp) (fun k hk => .seed hk) ?_ k hk
    intro k code ast hP hr hp d hd
    exact .step hP hr hp hd
  · intro hr
    induction hr with
    | seed hk => exact h1q _ hk
    | step hP hr hp hd ihr => exact h4 _ ihr (by simp) _ _ hr hp _ hd

/-- Library file contents for the C1 counterexample: `A` holds
`use crate::g;`, `B` holds `use super::a::b;`. -/
def c1astA : File := ⟨[.itemUse (.path "crate" (.name "g"))]⟩

/-- Second parsed file of the C1 counterexample. -/
def c1astB : File := ⟨[.itemUse (.path "super" (.path "a" (.name "b")))]⟩

/-- Oracle for the C1 counterexample. -/
def oC1 : Oracle :=
  ⟨fun s => if s = "A" then some c1astA else if s = "B" then some c1astB else none,
   fun _ => none, fun _ => ""⟩

/-- File system for the C1 counterexample: the library root directory is
`src`; a sibling plain file `src.rs` exists (what `lib_file` resolves the
one-segment key `["library"]` to, since it drops the first segment and sets
the `rs` extension on the root itself). -/
def fsC1 : FS := ⟨[(["src", "x.rs"], "A"), (["src.rs"], "B")]⟩

/-- Did the loop complete normally? -/
def isOk : LoopRes → Bool
  | .ok _ _ _ => true
  | _ => false

/-- C1 counterexample: a completed run whose read log contains the same
file path `src.rs` twice — the distinct keys `["library"]` and `["a"]` both
resolve to it, so that module file is read from disk and parsed twice,
refuting "each distinct module file is read and parsed at most once" and
"loaded exactly once". -/
theorem c1_counterexample :
    isOk (loopFuel oC1 fsC1 ["src"] 5 moduleDefault [] [["library", "x"]] []) = true ∧
    visitedOf (loopFuel oC1 fsC1 ["src"] 5 moduleDefault [] [["library", "x"]] []) =
      [["library", "x"], ["library"], ["a"]] ∧
    readLogOf (loopFuel oC1 fsC1 ["src"] 5 moduleDefault [] [["library", "x"]] []) =
      [["src", "x.rs"], ["src.rs"], ["src.rs"]] ∧
    ¬ (readLogOf (loopFuel oC1 fsC1 ["src"] 5 moduleDefault [] [["library", "x"]] [])).Nodup := by
  refine ⟨by decide, by decide, by decide, by decide⟩

/-- C1 witness: `c1_amended` applied to a concrete completed run. -/
theorem c1_witness :
    ([["library", "a"]] : List Key).Nodup ∧
    [["lib", "a.rs"]] = ([["library", "a"]] : List Key).map (lib_file fs4 ["lib"]) :=
  ⟨(c1_amended o4 fs4 ["lib"] [["library", "a"]] 2 m4tree [["library", "a"]]
      [["lib", "a.rs"]] rfl).1,
   (c1_amended o4 fs4 ["lib"] [["library", "a"]] 2 m4tree [["library", "a"]]
      [["lib", "a.rs"]] rfl).2.1⟩

/-! ## C9 — termination of the closure loop

The Rust loop is unbounded, so the embedding runs it on fuel; termination is
the statement that some finite fuel always suffices, whatever the (finite)
file system, oracle and seed queue.  The proof builds a finite universe `U`
of keys that can ever be enqueued — every pushed key's segments come from a
fixed finite alphabet (the seeds' segments, `"library"`, and the identifiers
of the snapshot's parsed files), and its length is bounded because pushes
only happen after a successful read, which pins the current key's length to
an existing path's length — and descends on the measure
`|U \ visited| * (maxdeps + 1) + |queue|`. -/

/-- Maximum of a list of naturals. -/
def natMaxL : List Nat → Nat
  | [] => 0
  | n :: r => max n (natMaxL r)

/-- Length of the longest file path of the snapshot. -/
def maxPathLen (fs : FS) : Nat :=
  natMaxL (fs.files.map (fun pc => pc.1.length))

/-- Identifiers of all use trees of a list. -/
def usesIdents : List UseTree → List String
  | [] => []
  | t :: ts => treeIdents t ++ usesIdents ts

/-- Identifiers of all use trees of a file. -/
def fileIdents (f : File) : List String :=
  usesIdents (fileUses f)

/-- Identifiers contributed by one stored file content, as the oracle
parses it. -/
def oracleFileIdents (O : Oracle) (code : String) : List String :=
  match O.parseFile code with
  | some ast => fileIdents ast
  | none => []

/-- Identifiers contributed by a list of stored files. -/
def fsIdentsL (O : Oracle) : List (List String × String) → List String
  | [] => []
  | pc :: rest => oracleFileIdents O pc.2 ++ fsIdentsL O rest

/-- All segments of a list of keys. -/
def flatKeys : List Key → List String
  | [] => []
  | k :: r => k ++ flatKeys r

/-- The segment alphabet every enqueued key draws from. -/
def segAll (O : Oracle) (fs : FS) (q0 : List Key) : List String :=
  "library" :: (flatKeys q0 ++ fsIdentsL O fs.files)

/-- Length bound on every key the loop can push. -/
def lenBound (O : Oracle) (fs : FS) (q0 : List Key) : Nat :=
  maxPathLen fs + (segAll O fs q0).length + 2

/-- Each alphabet element consed onto each list. -/
def consAll : List String → List (List String) → List (List String)
  | [], _ => []
  | a :: rest, ls => ls.map (a :: ·) ++ consAll rest ls

/-- All lists over `alpha` of length at most `n` (with repetitions). -/
def listsLe : Nat → List String → List (List String)
  | 0, _ => [[]]
  | n + 1, alpha => [] :: consAll alpha (listsLe n alpha)

/-- The finite universe of keys the loop can ever hold in its queue. -/
def uList (O : Oracle) (fs : FS) (q0 : List Key) : List Key :=
  q0 ++ listsLe (lenBound O fs q0) (segAll O fs q0)

/-- Members of a list bound its maximum. -/
theorem le_natMaxL {l : List Nat} {n : Nat} (h : n ∈ l) : n ≤ natMaxL l := by
  induction l with
  | nil => simp at h
  | cons a r ih =>
    rw [natMaxL]
    rcases List.mem_cons.mp h with h | h
    · rw [h]
      exact le_max_left _ _
    · exact le_trans (ih h) (le_max_right _ _)

/-- Setting a path's extension does not change its number of components. -/
theorem pathSetExtension_length (p : List String) (e : String) :
    (pathSetExtension p e).length = p.length := by
  induction p with
  | nil => rfl
  | cons a rest ih =>
    cases rest with
    | nil => rfl
    | cons b r =>
      have hstep : pathSetExtension (a :: b :: r) e = a :: pathSetExtension (b :: r) e := rfl
      rw [hstep, List.length_cons, List.length_cons, ih]

/-- A successful lookup is a member of the association list. -/
theorem lookupPath_mem : ∀ (l : List (List String × String)) (p : List String) (c : String),
    lookupPath l p = some c → (p, c) ∈ l
  | [], p, c, h => by simp [lookupPath] at h
  | (q, c') :: rest, p, c, h => by
    rw [lookupPath] at h
    split at h
    · rename_i heq
      cases h
      subst heq
      simp
    · exact List.mem_cons_of_mem _ (lookupPath_mem rest p c h)

/-- Segments of a seed key are in the flattened seed segments. -/
theorem mem_flatKeys {q0 : List Key} {k : Key} {s : String}
    (hk : k ∈ q0) (hs : s ∈ k) : s ∈ flatKeys q0 := by
  induction q0 with
  | nil => simp at hk
  | cons a r ih =>
    rw [flatKeys]
    rcases List.mem_cons.mp hk with h | h
    · subst h
      exact List.mem_append_left _ hs
    · exact List.mem_append_right _ (ih h)

/-- Extending by a member of the alphabet stays in `consAll`. -/
theorem mem_consAll {alpha : List String} {ls : List (List String)} {a : String}
    {t : List String} (ha : a ∈ alpha) (ht : t ∈ ls) : (a :: t) ∈ consAll alpha ls := by
  induction alpha with
  | nil => simp at ha
  | cons b rest ih =>
    rw [consAll]
    rcases List.mem_cons.mp ha with h | h
    · subst h
      exact List.mem_append_left _ (List.mem_map_of_mem _ ht)
    · exact List.mem_append_right _ (ih h)

/-- Every short-enough list over the alphabet is in `listsLe`. -/
theorem mem_listsLe : ∀ (n : Nat) (k : List String) (alpha : List String),
    k.length ≤ n → (∀ s ∈ k, s ∈ alpha) → k ∈ listsLe n alpha
  | 0, k, alpha, hlen, _ => by
    have : k = [] := List.eq_nil_of_length_eq_zero (Nat.le_zero.mp hlen)
    subst this
    simp [listsLe]
  | n + 1, [], alpha, _, _ => by simp [listsLe]
  | n + 1, a :: t, alpha, hlen, hseg => by
    rw [listsLe]
    refine List.mem_cons_of_mem _ (mem_consAll (hseg a (by simp)) ?_)
    refine mem_listsLe n t alpha ?_ (fun s hs => hseg s (List.mem_cons_of_mem _ hs))
    simpa using hlen

/-- Elements of `consAll` split into head and tail. -/
theorem consAll_split : ∀ (alpha : List String) (ls : List (List String)) (k : List String),
    k ∈ consAll alpha ls → ∃ a ∈ alpha, ∃ t ∈ ls, k = a :: t
  | [], ls, k, h => by simp [consAll] at h
  | b :: rest, ls, k, h => by
    rw [consAll] at h
    rcases List.mem_append.mp h with h | h
    · obtain ⟨t, ht, rfl⟩ := List.mem_map.mp h
      exact ⟨b, by simp, t, ht, rfl⟩
    · obtain ⟨a, ha, t, ht, rfl⟩ := consAll_split rest ls k h
      exact ⟨a, List.mem_cons_of_mem _ ha, t, ht, rfl⟩

/-- Members of `listsLe` use only the alphabet. -/
theorem listsLe_segs : ∀ (n : Nat) (alpha : List String) (k : List String),
    k ∈ listsLe n alpha → ∀ s ∈ k, s ∈ alpha
  | 0, alpha, k, h => by
    simp only [listsLe, List.mem_singleton] at h
    subst h
    simp
  | n + 1, alpha, k, h => by
    rw [listsLe] at h
    rcases List.mem_cons.mp h with h | h
    · subst h
      simp
    · obtain ⟨a, ha, t, ht, rfl⟩ := consAll_split alpha (listsLe n alpha) k h
      intro s hs
      rcases List.mem_cons.mp hs with h' | h'
      · subst h'
        exact ha
      · exact listsLe_segs n alpha t ht s h'

mutual

/-- Every segment of a collected leaf comes from the prefix or the tree's
identifiers. -/
theorem collect_leaves_seg : ∀ (t : UseTree) (pre x : List String),
    x ∈ collect_leaves t pre → ∀ s ∈ x, s ∈ pre ∨ s ∈ treeIdents t
  | .path id sub, pre, x, hx => by
    simp only [collect_leaves] at hx
    intro s hs
    rcases collect_leaves_seg sub (pre ++ [id]) x hx s hs with h | h
    · rcases List.mem_append.mp h with h | h
      · exact Or.inl h
      · rw [treeIdents]
        exact Or.inr (by simpa using Or.inl (List.mem_singleton.mp h))
    · rw [treeIdents]
      exact Or.inr (List.mem_cons_of_mem _ h)
  | .group items, pre, x, hx => by
    simp only [collect_leaves] at hx
    intro s hs
    exact collect_leavesL_seg items pre x hx s hs
  | .name id, pre, x, hx => by
    simp only [collect_leaves, List.mem_singleton] at hx
    subst hx
    intro s hs
    rcases List.mem_append.mp hs with h | h
    · exact Or.inl h
    · exact Or.inr (by rw [treeIdents]; exact h)
  | .rename id asn, pre, x, hx => by
    simp only [collect_leaves, List.mem_singleton] at hx
    subst hx
    intro s hs
    rcases List.mem_append.mp hs with h | h
    · exact Or.inl h
    · exact Or.inr (by rw [treeIdents]; exact h)
  | .glob, pre, x, hx => by simp [collect_leaves] at hx

/-- The `collect_leaves_seg` for the members of a group. -/
theorem collect_leavesL_seg : ∀ (ts : List UseTree) (pre x : List String),
    x ∈ collect_leavesL ts pre → ∀ s ∈ x, s ∈ pre ∨ s ∈ treeIdentsL ts
  | [], pre, x, hx => by simp [collect_leavesL] at hx
  | t :: ts, pre, x, hx => by
    simp only [collect_leavesL, List.mem_append] at hx
    intro s hs
    rcases hx with hx | hx
    · rcases collect_leaves_seg t pre x hx s hs with h | h
      · exact Or.inl h
      · exact Or.inr (by rw [treeIdentsL]; exact List.mem_append_left _ h)
    · rcases collect_leavesL_seg ts pre x hx s hs with h | h
      · exact Or.inl h
      · exact Or.inr (by rw [treeIdentsL]; exact List.mem_append_right _ h)

end

mutual

/-- A collected leaf is no longer than the prefix plus the tree's
identifier count. -/
theorem collect_leaves_len : ∀ (t : UseTree) (pre x : List String),
    x ∈ collect_leaves t pre → x.length ≤ pre.length + (treeIdents t).length
  | .path id sub, pre, x, hx => by
    simp only [collect_leaves] at hx
    have h := collect_leaves_len sub (pre ++ [id]) x hx
    rw [treeIdents]
    simp only [List.length_append, List.length_singleton, List.length_cons,
      List.length_nil] at h ⊢
    omega
  | .group items, pre, x, hx => by
    simp only [collect_leaves] at hx
    rw [treeIdents]
    exact collect_leavesL_len items pre x hx
  | .name id, pre, x, hx => by
    simp only [collect_leaves, List.mem_singleton] at hx
    subst hx
    simp [treeIdents]
  | .rename id asn, pre, x, hx => by
    simp only [collect_leaves, List.mem_singleton] at hx
    subst hx
    simp [treeIdents]
  | .glob, pre, x, hx => by simp [collect_leaves] at hx

/-- The `collect_leaves_len` for the members of a group. -/
theorem collect_leavesL_len : ∀ (ts : List UseTree) (pre x : List String),
    x ∈ collect_leavesL ts pre → x.length ≤ pre.length + (treeIdentsL ts).length
  | [], pre, x, hx => by simp [collect_leavesL] at hx
  | t :: ts, pre, x, hx => by
    simp only [collect_leavesL, List.mem_append] at hx
    rw [treeIdentsL, List.length_append]
    rcases hx with hx | hx
    · have h := collect_leaves_len t pre x hx
      omega
    · have h := collect_leavesL_len ts pre x hx
      omega

end

mutual

/-- A use tree collects at most twice as many leaves as it has
identifiers. -/
theorem collect_leaves_count : ∀ (t : UseTree) (pre : List String),
    (collect_leaves t pre).length ≤ 2 * (treeIdents t).length
  | .path id sub, pre => by
    simp only [collect_leaves, treeIdents, List.length_cons]
    have h := collect_leaves_count sub (pre ++ [id])
    omega
  | .group items, pre => by
    simp only [collect_leaves, treeIdents]
    exact collect_leavesL_count items pre
  | .name id, pre => by simp [collect_leaves, treeIdents]
  | .rename id asn, pre => by simp [collect_leaves, treeIdents]
  | .glob, pre => by simp [collect_leaves, treeIdents]

/-- The `collect_leaves_count` for the members of a group. -/
theorem collect_leavesL_count : ∀ (ts : List UseTree) (pre : List String),
    (collect_leavesL ts pre).length ≤ 2 * (treeIdentsL ts).length
  | [], pre => by simp [collect_leavesL, treeIdentsL]
  | t :: ts, pre => by
    simp only [collect_leavesL, treeIdentsL, List.length_append]
    have h1 := collect_leaves_count t pre
    have h2 := collect_leavesL_count ts pre
    omega

end

/-- A dependency of the file came from one of its use trees. -/
theorem usesDeps_split : ∀ (ts : List UseTree) (cur d : List String),
    d ∈ usesDeps ts cur → ∃ t ∈ ts, d ∈ useDeps t cur
  | [], cur, d, hd => by simp [usesDeps] at hd
  | t :: ts, cur, d, hd => by
    simp only [usesDeps, List.mem_append] at hd
    rcases hd with hd | hd
    · exact ⟨t, by simp, hd⟩
    · obtain ⟨t', ht', hd'⟩ := usesDeps_split ts cur d hd
      exact ⟨t', List.mem_cons_of_mem _ ht', hd'⟩

/-- The two shapes of an internal dependency: a `crate::` leaf collected
under `["library"]`, or a `super::` leaf collected under the current path
less its last segment. -/
theorem useDeps_cases {t : UseTree} {cur d : List String} (hd : d ∈ useDeps t cur) :
    (∃ sub, t = .path "crate" sub ∧ d ∈ collect_leaves sub ["library"]) ∨
    (∃ sub, t = .path "super" sub ∧ cur ≠ [] ∧ d ∈ collect_leaves sub cur.dropLast) := by
  cases t with
  | path id sub =>
    rw [useDeps] at hd
    split at hd
    · rename_i hid
      exact Or.inl ⟨sub, by rw [hid], hd⟩
    · split at hd
      · rename_i hid
        exact Or.inr ⟨sub, by rw [hid.1], hid.2, hd⟩
      · simp at hd
  | group items => simp [useDeps] at hd
  | name id => simp [useDeps] at hd
  | rename id asn => simp [useDeps] at hd
  | glob => simp [useDeps] at hd

/-- One use tree contributes at most `2 * |treeIdents|` dependencies. -/
theorem useDeps_count (t : UseTree) (cur : List String) :
    (useDeps t cur).length ≤ 2 * (treeIdents t).length := by
  cases t with
  | path id sub =>
    rw [useDeps]
    split
    · have h := collect_leaves_count sub ["library"]
      rw [treeIdents, List.length_cons]
      omega
    · split
      · have h := collect_leaves_count sub cur.dropLast
        rw [treeIdents, List.length_cons]
        omega
      · simp
  | group items => simp [useDeps]
  | name id => simp [useDeps]
  | rename id asn => simp [useDeps]
  | glob => simp [useDeps]

/-- A file contributes at most `2 * |usesIdents|` dependencies. -/
theorem usesDeps_count : ∀ (ts : List UseTree) (cur : List String),
    (usesDeps ts cur).length ≤ 2 * (usesIdents ts).length
  | [], cur => by simp [usesDeps, usesIdents]
  | t :: ts, cur => by
    simp only [usesDeps, usesIdents, List.length_append]
    have h1 := useDeps_count t cur
    have h2 := usesDeps_count ts cur
    omega

/-- One member's identifiers sit inside the identifiers of the whole
list. -/
theorem usesIdents_mem_le : ∀ (ts : List UseTree) (t : UseTree), t ∈ ts →
    (treeIdents t).length ≤ (usesIdents ts).length ∧
      ∀ s ∈ treeIdents t, s ∈ usesIdents ts
  | [], t, ht => by simp at ht
  | t' :: ts, t, ht => by
    rw [usesIdents]
    rcases List.mem_cons.mp ht with h | h
    · subst h
      constructor
      · rw [List.length_append]
        omega
      · exact fun s hs => List.mem_append_left _ hs
    · obtain ⟨h1, h2⟩ := usesIdents_mem_le ts t h
      constructor
      · rw [List.length_append]
        omega
      · exact fun s hs => List.mem_append_right _ (h2 s hs)

/-- One stored file's identifiers sit inside the snapshot's identifier
list. -/
theorem fsIdentsL_mem_le (O : Oracle) :
    ∀ (l : List (List String × String)) (p : List String) (c : String),
      (p, c) ∈ l → (oracleFileIdents O c).length ≤ (fsIdentsL O l).length ∧
        ∀ s ∈ oracleFileIdents O c, s ∈ fsIdentsL O l
  | [], p, c, h => by simp at h
  | pc :: rest, p, c, h => by
    rw [fsIdentsL]
    rcases List.mem_cons.mp h with h | h
    · subst h
      refine ⟨?_, fun s hs => List.mem_append_left _ hs⟩
      show (oracleFileIdents O c).length ≤ (oracleFileIdents O c ++ fsIdentsL O rest).length
      rw [List.length_append]
      omega
    · obtain ⟨h1, h2⟩ := fsIdentsL_mem_le O rest p c h
      constructor
      · rw [List.length_append]
        omega
      · exact fun s hs => List.mem_append_right _ (h2 s hs)

/-- The snapshot's identifier list sits inside the alphabet. -/
theorem fsIdents_le_segAll (O : Oracle) (fs : FS) (q0 : List Key) :
    (fsIdentsL O fs.files).length ≤ (segAll O fs q0).length ∧
      ∀ s ∈ fsIdentsL O fs.files, s ∈ segAll O fs q0 := by
  rw [segAll]
  constructor
  · simp only [List.length_cons, List.length_append]
    omega
  · exact fun s hs => List.mem_cons_of_mem _ (List.mem_append_right _ hs)

/-- Every dependency key pushed from a readable, parsed key of the
universe stays in the universe. -/
theorem push_bound (O : Oracle) (fs : FS) (root : List String) (q0 : List Key) :
    ∀ (k : Key) (code : String) (ast : File), k ∈ uList O fs q0 → k ≠ [] →
      readToString fs (lib_file fs root k) = some code →
      O.parseFile code = some ast →
      ∀ d ∈ internal_deps ast k, d.dropLast ∈ uList O fs q0 := by
  intro k code ast hkU hkne hread hparse d hd
  have hmem : (lib_file fs root k, code) ∈ fs.files := lookupPath_mem _ _ _ hread
  have hfi := fsIdentsL_mem_le O fs.files _ _ hmem
  have hofi : oracleFileIdents O code = fileIdents ast := by
    rw [oracleFileIdents, hparse]
  have hsa := fsIdents_le_segAll O fs q0
  have hksegs : ∀ s ∈ k, s ∈ segAll O fs q0 := by
    rcases List.mem_append.mp hkU with hk | hk
    · intro s hs
      rw [segAll]
      exact List.mem_cons_of_mem _ (List.mem_append_left _ (mem_flatKeys hk hs))
    · exact listsLe_segs _ _ k hk
  have hklen : k.length ≤ maxPathLen fs + 1 := by
    have hlenmem : (lib_file fs root k).length ∈ fs.files.map (fun pc => pc.1.length) :=
      List.mem_map_of_mem _ hmem
    have hlen : (lib_file fs root k).length ≤ maxPathLen fs := le_natMaxL hlenmem
    have hlf : (lib_file fs root k).length = root.length + (k.length - 1) := by
      rw [lib_file_eq]
      split
      · rw [pathSetExtension_length, List.length_append, List.length_drop]
      · rw [List.length_append, List.length_drop]
    have hk1 : 1 ≤ k.length := List.length_pos.mpr hkne
    omega
  have hfiSeg : ∀ s ∈ fileIdents ast, s ∈ segAll O fs q0 := by
    intro s hs
    rw [← hofi] at hs
    exact hsa.2 s (hfi.2 s hs)
  have hfiLen : (fileIdents ast).length ≤ (segAll O fs q0).length := by
    rw [← hofi]
    exact le_trans hfi.1 hsa.1
  obtain ⟨t, htm, hdt⟩ := usesDeps_split (fileUses ast) k d hd
  have hti := usesIdents_mem_le (fileUses ast) t htm
  have htiSeg : ∀ s ∈ treeIdents t, s ∈ segAll O fs q0 := by
    intro s hs
    exact hfiSeg s (hti.2 s hs)
  have htiLen : (treeIdents t).length ≤ (segAll O fs q0).length :=
    le_trans hti.1 hfiLen
  have hdfacts : (∀ s ∈ d, s ∈ segAll O fs q0) ∧ d.length ≤ lenBound O fs q0 := by
    rcases useDeps_cases hdt with ⟨sub, rfl, hdc⟩ | ⟨sub, rfl, _, hdc⟩
    · constructor
      · intro s hs
        rcases collect_leaves_seg sub ["library"] d hdc s hs with h | h
        · rw [List.mem_singleton.mp h, segAll]
          simp
        · refine htiSeg s ?_
          rw [treeIdents]
          exact List.mem_cons_of_mem _ h
      · have h1 := collect_leaves_len sub ["library"] d hdc
        have h2 : (treeIdents sub).length + 1 = (treeIdents (UseTree.path "crate" sub)).length := by
          rw [treeIdents, List.length_cons]
        rw [lenBound]
        simp only [List.length_singleton] at h1
        omega
    · constructor
      · intro s hs
        rcases collect_leaves_seg sub k.dropLast d hdc s hs with h | h
        · exact hksegs s ((List.dropLast_sublist k).subset h)
        · refine htiSeg s ?_
          rw [treeIdents]
          exact List.mem_cons_of_mem _ h
      · have h1 := collect_leaves_len sub k.dropLast d hdc
        have h2 : (treeIdents sub).length + 1 = (treeIdents (UseTree.path "super" sub)).length := by
          rw [treeIdents, List.length_cons]
        rw [lenBound]
        rw [List.length_dropLast] at h1
        omega
  refine List.mem_append_right _ (mem_listsLe _ _ _ ?_ ?_)
  · have := hdfacts.2
    have hdl : d.dropLast.length ≤ d.length := by
      rw [List.length_dropLast]
      omega
    omega
  · intro s hs
    exact hdfacts.1 s ((List.dropLast_sublist d).subset hs)

/-- A readable, parsed file pushes at most `2 * |segAll|` dependency
keys. -/
theorem deps_bound (O : Oracle) (fs : FS) (root : List String) (q0 : List Key) :
    ∀ (k : Key) (code : String) (ast : File), k ∈ uList O fs q0 → k ≠ [] →
      readToString fs (lib_file fs root k) = some code →
      O.parseFile code = some ast →
      (internal_deps ast k).length ≤ 2 * (segAll O fs q0).length := by
  intro k code ast _ _ hread hparse
  have hmem := lookupPath_mem _ _ _ hread
  have hfi := fsIdentsL_mem_le O fs.files _ _ hmem
  have hofi : oracleFileIdents O code = fileIdents ast := by
    rw [oracleFileIdents, hparse]
  have hsa := fsIdents_le_segAll O fs q0
  have h1 : (internal_deps ast k).length ≤ 2 * (fileIdents ast).length := by
    rw [internal_deps, fileIdents]
    exact usesDeps_count (fileUses ast) k
  have h2 : (fileIdents ast).length ≤ (fsIdentsL O fs.files).length := by
    rw [← hofi]
    exact hfi.1
  have h3 := hsa.1
  omega

/-- Visiting a fresh universe key shrinks the unvisited part of the
universe by one. -/
theorem card_sdiff_append (U : Finset Key) (vis : List Key) (path : Key)
    (hU : path ∈ U) (hnv : path ∉ vis) :
    (U \ (vis ++ [path]).toFinset).card + 1 = (U \ vis.toFinset).card := by
  have h1 : (vis ++ [path]).toFinset = insert path vis.toFinset := by
    rw [List.toFinset_append]
    have h2 : ([path] : List Key).toFinset = {path} := by simp
    rw [h2, Finset.union_comm, ← Finset.insert_eq]
  have hmem : path ∈ U \ vis.toFinset := by
    rw [Finset.mem_sdiff, List.mem_toFinset]
    exact ⟨hU, hnv⟩
  rw [h1, Finset.sdiff_insert, Finset.card_erase_of_mem hmem]
  have hpos : 0 < (U \ vis.toFinset).card := Finset.card_pos.mpr ⟨path, hmem⟩
  omega

/-- Step equation: an empty queue completes the loop. -/
theorem loopFuel_nilqueue (O : Oracle) (fs : FS) (root : List String) (fuel : Nat)
    (m : Module) (vis log : List Key) :
    loopFuel O fs root (fuel + 1) m vis [] log = .ok m vis log := rfl

/-- Step equation: popping an already visited key just shrinks the queue. -/
theorem loopFuel_revisit (O : Oracle) (fs : FS) (root : List String) (fuel : Nat)
    (m : Module) (vis q log : List Key) (path : Key) (hmem : path ∈ vis) :
    loopFuel O fs root (fuel + 1) m vis (q ++ [path]) log =
      loopFuel O fs root fuel m vis q log := by
  simp [loopFuel, List.getLast?_concat, List.dropLast_concat, hmem]

/-- Step equation: popping a fresh empty key aborts (the Rust `&segs[1..]`
slice panics). -/
theorem loopFuel_panic (O : Oracle) (fs : FS) (root : List String) (fuel : Nat)
    (m : Module) (vis q log : List Key) (hnmem : [] ∉ vis) :
    loopFuel O fs root (fuel + 1) m vis (q ++ [[]]) log =
      .fail "panic: empty module key" := by
  simp [loopFuel, List.getLast?_concat, List.dropLast_concat, hnmem]

/-- Step equation: a fresh key whose file is missing is skipped (lenient
continuation; same content as the C3 step, restated for internal use). -/
theorem loopFuel_skipmiss (O : Oracle) (fs : FS) (root : List String) (fuel : Nat)
    (m : Module) (vis q log : List Key) (path : Key)
    (hnmem : path ∉ vis) (hne : path ≠ [])
    (hread : readToString fs (lib_file fs root path) = none) :
    loopFuel O fs root (fuel + 1) m vis (q ++ [path]) log =
      loopFuel O fs root fuel m (vis ++ [path]) q (log ++ [lib_file fs root path]) := by
  have hne' : path.isEmpty = false := by
    simpa using hne
  simp [loopFuel, List.getLast?_concat, List.dropLast_concat, hnmem, hne', hread]

/-- Step equation: a fresh key whose file fails to parse aborts the run. -/
theorem loopFuel_parsefail (O : Oracle) (fs : FS) (root : List String) (fuel : Nat)
    (m : Module) (vis q log : List Key) (path : Key) (code : String)
    (hnmem : path ∉ vis) (hne : path ≠ [])
    (hread : readToString fs (lib_file fs root path) = some code)
    (hparse : O.parseFile code = none) :
    loopFuel O fs root (fuel + 1) m vis (q ++ [path]) log =
      .fail "library parse error" := by
  have hne' : path.isEmpty = false := by
    simpa using hne
  simp [loopFuel, List.getLast?_concat, List.dropLast_concat, hnmem, hne', hread, hparse]

/-- Step equation: a fresh key whose file reads and parses is inserted into
the tree and its unvisited dependency keys are pushed. -/
theorem loopFuel_load (O : Oracle) (fs : FS) (root : List String) (fuel : Nat)
    (m : Module) (vis q log : List Key) (path : Key) (code : String) (ast : File)
    (hnmem : path ∉ vis) (hne : path ≠ [])
    (hread : readToString fs (lib_file fs root path) = some code)
    (hparse : O.parseFile code = some ast) :
    loopFuel O fs root (fuel + 1) m vis (q ++ [path]) log =
      loopFuel O fs root fuel (m.insert path code) (vis ++ [path])
        (q ++ ((internal_deps ast path).map (fun d => d.dropLast)).filter
          (fun d => !((vis ++ [path]).contains d)))
        (log ++ [lib_file fs root path]) := by
  have hne' : path.isEmpty = false := by
    simpa using hne
  simp [loopFuel, List.getLast?_concat, List.dropLast_concat, hnmem, hne', hread, hparse]

/-- Enough fuel prevents fuel exhaustion: with every queued key inside a
finite universe `U` that is closed under dependency pushes and whose files
push at most `D` dependencies each, the loop completes within
`|U \ visited| * (D + 1) + |queue|` iterations (each iteration either pops
without growing the visited set, or visits a fresh universe key and pushes
at most `D` new keys). -/
theorem loop_no_fuelOut (O : Oracle) (fs : FS) (root : List String)
    (U : Finset Key) (D : Nat)
    (hPush : ∀ (k : Key) (code : String) (ast : File), k ∈ U → k ≠ [] →
      readToString fs (lib_file fs root k) = some code →
      O.parseFile code = some ast →
      ∀ d ∈ internal_deps ast k, d.dropLast ∈ U)
    (hD : ∀ (k : Key) (code : String) (ast : File), k ∈ U → k ≠ [] →
      readToString fs (lib_file fs root k) = some code →
      O.parseFile code = some ast →
      (internal_deps ast k).length ≤ D) :
    ∀ (fuel : Nat) (m : Module) (vis q log : List Key),
      (∀ k ∈ q, k ∈ U) →
      (U \ vis.toFinset).card * (D + 1) + q.length < fuel →
      loopFuel O fs root fuel m vis q log ≠ .fuelOut := by
  intro fuel
  induction fuel with
  | zero =>
    intro m vis q log _ hlt
    exact absurd hlt (by omega)
  | succ n ih =>
    intro m vis q log hqU hlt
    rcases List.eq_nil_or_concat q with rfl | ⟨q', path, hqe⟩
    · rw [loopFuel_nilqueue]
      simp
    · rw [List.concat_eq_append] at hqe
      subst hqe
      have hpathq : path ∈ q' ++ [path] := by simp
      have hlen : (q' ++ [path]).length = q'.length + 1 := by simp
      have hsubU : ∀ k ∈ q', k ∈ U := fun k hk => hqU k (List.mem_append_left _ hk)
      rw [hlen] at hlt
      by_cases hmem : path ∈ vis
      · rw [loopFuel_revisit O fs root n m vis q' log path hmem]
        exact ih m vis q' log hsubU (by omega)
      · by_cases hne : path = []
        · subst hne
          rw [loopFuel_panic O fs root n m vis q' log hmem]
          simp
        · have hpU : path ∈ U := hqU path hpathq
          have hcard := card_sdiff_append U vis path hpU hmem
          have hmul : (U \ vis.toFinset).card * (D + 1) =
              (U \ (vis ++ [path]).toFinset).card * (D + 1) + (D + 1) := by
            rw [← hcard, Nat.succ_mul]
          cases hread : readToString fs (lib_file fs root path) with
          | none =>
            rw [loopFuel_skipmiss O fs root n m vis q' log path hmem hne hread]
            exact ih m (vis ++ [path]) q' (log ++ [lib_file fs root path]) hsubU (by omega)
          | some code =>
            cases hparse : O.parseFile code with
            | none =>
              rw [loopFuel_parsefail O fs root n m vis q' log path code hmem hne hread hparse]
              simp
            | some ast =>
              rw [loopFuel_load O fs root n m vis q' log path code ast hmem hne hread hparse]
              refine ih (m.insert path code) (vis ++ [path]) _
                (log ++ [lib_file fs root path]) ?_ ?_
              · intro k hk
                rcases List.mem_append.mp hk with hk | hk
                · exact hsubU k hk
                · rw [List.mem_filter] at hk
                  obtain ⟨d, hd, rfl⟩ := List.mem_map.mp hk.1
                  exact hPush path code ast hpU hne hread hparse d hd
              · have hfilter : (((internal_deps ast path).map (fun d => d.dropLast)).filter
                    (fun d => !((vis ++ [path]).contains d))).length ≤ D := by
                  calc (((internal_deps ast path).map (fun d => d.dropLast)).filter
                        (fun d => !((vis ++ [path]).contains d))).length
                      ≤ ((internal_deps ast path).map (fun d => d.dropLast)).length :=
                        List.length_filter_le _ _
                    _ = (internal_deps ast path).length := List.length_map _ _
                    _ ≤ D := hD path code ast hpU hne hread hparse
                rw [List.length_append]
                omega

/-- C9: for every oracle, finite file system, library root and seed queue,
some finite fuel completes the closure loop — the Rust `while let` loop
terminates (it ends when the queue empties, or earlier on a fatal parse
error), because the visited set strictly grows inside a finite universe of
keys and each iteration pushes boundedly many new keys. -/
theorem c9_loop_terminates (O : Oracle) (fs : FS) (root : List String) (q0 : List Key) :
    ∃ fuel, loopFuel O fs root fuel moduleDefault [] q0 [] ≠ .fuelOut := by
  refine ⟨((uList O fs q0).toFinset \ ([] : List Key).toFinset).card *
      (2 * (segAll O fs q0).length + 1) + q0.length + 1, ?_⟩
  refine loop_no_fuelOut O fs root (uList O fs q0).toFinset (2 * (segAll O fs q0).length)
    ?_ ?_ _ moduleDefault [] q0 [] ?_ ?_
  · intro k code ast hk hkne hr hp d hd
    rw [List.mem_toFinset] at hk ⊢
    exact push_bound O fs root q0 k code ast hk hkne hr hp d hd
  · intro k code ast hk hkne hr hp
    rw [List.mem_toFinset] at hk
    exact deps_bound O fs root q0 k code ast hk hkne hr hp
  · intro k hk
    rw [List.mem_toFinset]
    exact List.mem_append_left _ hk
  · omega

end Bundler
